import Mathlib

/-!
# Verification of b2h5py Blosc2 optimized slicing (`b2h5py/blosc2.py`)

A shallow embedding of the optimized slice-read core of b2h5py:

* eligibility predicates `opt_slicing_selection_ok`, `opt_slicing_dataset_ok`,
  `opt_slicing_enabled`;
* the slice decomposition over the chunk grid and the work items it yields
  (the loop body of `opt_selection_read`);
* the chunk payload read, the integrity validation, the assembly of the
  output buffer and the final reshape/scalar packaging.

Machine integers are modelled as `Nat` (all the quantities involved are
non-negative array offsets and extents); Python exceptions become `Except`;
the h5py/Blosc2 collaborators (`iter_chunks`, `get_chunk_info_by_coord`
composed with `_read_chunk_slice`) are modelled from their documented
contracts as explicit Lean functions or oracle parameters.
-/

namespace B2

/-- A Python `slice(start, stop)` with unit step: the half-open interval
`[start, stop)` of array indices. -/
structure Slice where
  start : Nat
  stop : Nat
deriving Repr, DecidableEq

/-- Number of indices selected by a unit-step slice. -/
def Slice.size (s : Slice) : Nat := s.stop - s.start

/-- Does index `i` fall inside the slice? -/
def Slice.memb (s : Slice) (i : Nat) : Bool := decide (s.start ≤ i) && decide (i < s.stop)

/-- The normalized h5py `SimpleSelection`, as used by the source:
`selection._sel = (start, count, step, scalar)`, `selection.mshape = count`
(the pre-squeeze selected shape) and `selection.array_shape` drops the axes
indexed by a bare integer (`scalar` flag). `isSimple` models the
`isinstance(selection, h5sel.SimpleSelection)` test. -/
structure Selection where
  isSimple : Bool
  start : List Nat
  count : List Nat
  step : List Nat
  scalar : List Bool

/-- Models `selection.mshape`: the pre-squeeze shape of the selection. -/
def Selection.mshape (sel : Selection) : List Nat := sel.count

/-- Models `selection.array_shape`: the post-squeeze output shape, dropping axes
indexed by a bare integer. -/
def Selection.array_shape (sel : Selection) : List Nat :=
  ((sel.count.zip sel.scalar).filter (fun cs => !cs.2)).map (fun cs => cs.1)

/-- Embeds `opt_slicing_selection_ok`: the selection is a `SimpleSelection`
and `numpy.prod(selection._sel[2]) == 1`.  The steps are `Py_ssize_t`
values below `2^63`, so numpy forms an `int64` array and its product wraps
on overflow: the comparison holds exactly when the product of the steps is
congruent to 1 modulo `2^64`, not only when all steps equal 1. -/
def opt_slicing_selection_ok (sel : Selection) : Bool :=
  sel.isSimple && (sel.step.prod % 2 ^ 64 == 1)

/-- Dataset-level metadata consulted by `opt_slicing_dataset_ok`:
whether `dataset.chunks is not None`, the keys of `dataset._filters`,
`dataset.dtype.isnative`, `dataset.file.mode`, `platform.system()`, and
(for the patched property) whether the dataspace extent is `SIMPLE`. -/
structure H5Meta where
  extentSimple : Bool
  chunksDefined : Bool
  filters : List String
  dtypeIsNative : Bool
  fileMode : String
  platformSystem : String

/-- Python `str.lower` restricted to ASCII, as used on `platform.system()`. -/
def pyLower (s : String) : String := s.map Char.toLower

/-- Embeds `opt_slicing_dataset_ok`: chunked, Blosc2 filter id `'32026'` among the
dataset's filters, native-byte-order dtype, and read-only mode or a
non-Windows platform. -/
def opt_slicing_dataset_ok (m : H5Meta) : Bool :=
  m.chunksDefined
    && m.filters.contains "32026"
    && m.dtypeIsNative
    && (m.fileMode == "r" || pyLower m.platformSystem != "windows")

/-- Python whitespace accepted by `int(s, 10)` around the digits
(ASCII subset). -/
def isPyWs (c : Char) : Bool :=
  c = ' ' || c = '\t' || c = '\n' || c = '\r' || c = '\x0b' || c = '\x0c'

/-- Strip leading and trailing whitespace from a character list. -/
def stripWs (cs : List Char) : List Char :=
  ((cs.dropWhile isPyWs).reverse.dropWhile isPyWs).reverse

/-- A valid Python base-10 digit run: digits with optional single
underscores strictly between digits (`D ( _? D )*`). -/
def digRun : List Char → Bool
  | [] => false
  | [c] => c.isDigit
  | c :: '_' :: rest => c.isDigit && digRun rest
  | c :: rest => c.isDigit && digRun rest

/-- Value of a digit list in base 10. -/
def digitsToNat (cs : List Char) : Nat :=
  cs.foldl (fun a c => 10 * a + (c.toNat - '0'.toNat)) 0

/-- Python `int(s, 10)`: strip whitespace, optional sign, digit run with
underscore grouping; `none` models `ValueError`. -/
def pyIntBase10 (s : String) : Option Int :=
  let cs := stripWs s.data
  match cs with
  | '+' :: rest => if digRun rest then some (digitsToNat (rest.filter (fun c => c ≠ '_'))) else none
  | '-' :: rest => if digRun rest then some (-(digitsToNat (rest.filter (fun c => c ≠ '_')) : Int)) else none
  | _ => if digRun cs then some (digitsToNat (cs.filter (fun c => c ≠ '_'))) else none

/-- Embeds `opt_slicing_enabled`: reads the `BLOSC2_FILTER` environment variable
(`none` when unset), parses it as a base-10 integer with `0` as fallback on
`ValueError`, and reports whether the result is zero. -/
def opt_slicing_enabled (env : Option String) : Bool :=
  match pyIntBase10 (env.getD "0") with
  | none => true
  | some n => n == 0

/-- Core dataset descriptor used by the read path: shape, chunk shape,
element type tag (`dataset.dtype`), and the logical content, one value per
index tuple. -/
structure Dataset (α : Type) where
  shape : List Nat
  chunks : List Nat
  dtype : String
  data : List Nat → α

/-- Chunk indices along one axis whose chunks meet `[st, st+cnt)`:
`st/csh` up to `(st+cnt-1)/csh` (the enumeration performed by h5py
`Dataset.iter_chunks` along each axis). -/
def axisChunkIdxs (st cnt csh : Nat) : List Nat :=
  (List.range ((st + cnt - 1) / csh + 1 - st / csh)).map (fun j => st / csh + j)

/-- Along one axis, the intersection of chunk `k` (clipped to the dataset
extent `sh`) with the selection `[st, st+cnt)`, as yielded by
`Dataset.iter_chunks`. -/
def axisChunkSlice (sh st cnt csh k : Nat) : Slice :=
  ⟨max st (k * csh), min (st + cnt) (min (k * csh + csh) sh)⟩

/-- All per-axis intersection slices along one axis. -/
def axisChunkSlices (sh st cnt csh : Nat) : List Slice :=
  (axisChunkIdxs st cnt csh).map (axisChunkSlice sh st cnt csh)

/-- The per-axis slice lists for all axes of the dataset. -/
def axesLists (shape start count chunks : List Nat) : List (List Slice) :=
  ((shape.zip start).zip (count.zip chunks)).map
    (fun p => axisChunkSlices p.1.1 p.1.2 p.2.1 p.2.2)

/-- Cartesian product of per-axis choices, first axis outermost. -/
def cartProd {β : Type} : List (List β) → List (List β)
  | [] => [[]]
  | xs :: rest => xs.flatMap (fun x => (cartProd rest).map (fun t => x :: t))

/-- Models `dataset.iter_chunks(slice_)` per its h5py contract: one item per chunk
meeting the selection, each item the tuple of per-axis intersections of the
chunk with the selection. -/
def iterChunks (shape start count chunks : List Nat) : List (List Slice) :=
  cartProd (axesLists shape start count chunks)

/-- The data of one loop iteration of `opt_selection_read`:
`chunk_slice_start` (passed to `get_chunk_info_by_coord`),
`slice_as_chunk_slice` (the chunk-local region to read) and
`chunk_as_slice_slice` (the output-buffer region to fill). -/
structure WorkItem where
  coord : List Nat
  chunkSlice : List Slice
  outSlice : List Slice
deriving Repr, DecidableEq

/-- The head of the `opt_selection_read` loop body: skip the `iter_chunks`
item when its range is empty on some axis (bogus item, h5py#2341),
otherwise produce the per-chunk work data, per axis
`slice(csl.start % csh, csl.start % csh + (csl.stop - csl.start))`,
`slice(csl.start - sst, csl.stop - sst)` and `csl.start`. -/
def mkWorkItem (chunks sliceStart : List Nat) (csl : List Slice) : Option WorkItem :=
  if csl.any (fun s => decide (s.stop ≤ s.start)) then none
  else some
    { coord := csl.map Slice.start
    , chunkSlice := (csl.zip chunks).map
        (fun p => ⟨p.1.start % p.2, p.1.start % p.2 + (p.1.stop - p.1.start)⟩)
    , outSlice := (csl.zip sliceStart).map
        (fun p => ⟨p.1.start - p.2, p.1.stop - p.2⟩) }

/-- All work items of the decomposition of a selection. -/
def workItems (shape chunks start count : List Nat) : List WorkItem :=
  (iterChunks shape start count chunks).filterMap (mkWorkItem chunks start)

/-- A numpy array as returned by `_read_chunk_slice`: a dtype tag, a shape,
and contents indexed by tuple. -/
structure NpArr (α : Type) where
  dtype : String
  shape : List Nat
  data : List Nat → α

/-- The chunk storage oracle: `get_chunk_info_by_coord` composed with
`_read_chunk_slice`, taking `chunk_slice_start` and `slice_as_chunk_slice`. -/
abbrev ChunkReader (α : Type) := List Nat → List Slice → NpArr α

/-- Componentwise sum of index tuples. -/
def zipAdd (a b : List Nat) : List Nat := List.zipWith (· + ·) a b

/-- Start offsets of the chunk containing a coordinate, per axis
`coord / csh * csh` (how `get_chunk_info_by_coord` resolves a coordinate
to its containing chunk). -/
def chunkBase (chunks coord : List Nat) : List Nat :=
  List.zipWith (fun csh q => q / csh * csh) chunks coord

/-- The chunk reader over intact storage: the chunk containing `coord`
holds the dataset values starting at its base, and `_read_chunk_slice`
returns the requested chunk-local region, with the dataset's dtype after
opaque-dtype reinterpretation. -/
def goodReader (ds : Dataset α) : ChunkReader α :=
  fun coord sl =>
    { dtype := ds.dtype
    , shape := sl.map Slice.size
    , data := fun l =>
        ds.data (zipAdd (zipAdd (chunkBase ds.chunks coord) (sl.map Slice.start)) l) }

/-- Python `>` on tuples of naturals: lexicographic, a proper prefix is
smaller. -/
def tupGt : List Nat → List Nat → Bool
  | _ :: _, [] => true
  | [], _ => false
  | x :: xs, y :: ys => if y < x then true else if x < y then false else tupGt xs ys

/-- Does the index tuple `p` lie inside the multi-axis slice `ss`? -/
def inSlices (ss : List Slice) (p : List Nat) : Bool :=
  p.length == ss.length && (ss.zip p).all (fun q => q.1.memb q.2)

/-- Python exceptions escaping `opt_selection_read`: the `RuntimeError`
raised by the integrity validation, and the `ValueError` numpy raises when
an assigned sub-array does not broadcast to the output region. -/
inductive PyErr where
  | runtimeError (msg : String)
  | valueError (msg : String)
deriving Repr, DecidableEq

/-- Trailing-aligned numpy broadcast test, on reversed shape lists: each
source extent must equal the corresponding destination extent or be 1, and
source extents beyond the destination rank must be 1. -/
def bcastOkRev : List Nat → List Nat → Bool
  | [], _ => true
  | s :: ss, [] => (s == 1) && bcastOkRev ss []
  | s :: ss, d :: ds => (s == d || s == 1) && bcastOkRev ss ds

/-- Does an array of shape `src` broadcast onto a destination region of
shape `dst` under numpy assignment? -/
def broadcastsTo (src dst : List Nat) : Bool :=
  bcastOkRev src.reverse dst.reverse

/-- Trailing-aligned source index for a destination-region index, on
reversed lists: broadcast (extent-1) axes read index 0. -/
def bcastIdxRev : List Nat → List Nat → List Nat
  | [], _ => []
  | _ :: ss, [] => 0 :: bcastIdxRev ss []
  | s :: ss, o :: os => (if s == 1 then 0 else o) :: bcastIdxRev ss os

/-- The source index that a destination-region index reads under numpy
broadcast assignment. -/
def bcastIdx (src oidx : List Nat) : List Nat :=
  (bcastIdxRev src.reverse oidx.reverse).reverse

/-- numpy `slice_arr[out] = arr` (after the broadcast check has passed):
positions inside `out` take the sub-array value at the broadcast source
index of the position relative to the region start. -/
def writeBack (buf : List Nat → α) (out : List Slice) (arr : NpArr α) : List Nat → α :=
  fun p =>
    if inSlices out p then
      arr.data (bcastIdx arr.shape (List.zipWith (fun s x => x - s.start) out p))
    else buf p

/-- The integrity test of `opt_selection_read` on a chunk sub-array:
its dtype differs from the dataset's, or its rank differs from the
selection's, or its shape is greater — Python tuple comparison — than the
selection's memory shape `slice_shape`. -/
def chunkArrBad (ds : Dataset α) (mshape : List Nat) (arr : NpArr α) : Bool :=
  arr.dtype != ds.dtype || arr.shape.length != mshape.length || tupGt arr.shape mshape

/-- One iteration of the `opt_selection_read` loop over a work item: read
the chunk sub-array, raise `RuntimeError` if it fails the integrity test,
then perform `slice_arr[chunk_as_slice_slice] = chunk_slice_arr`, which
raises numpy's broadcast `ValueError` when the sub-array's shape does not
broadcast to the output region's shape, and otherwise places the sub-array
in the output buffer. -/
def processItem (ds : Dataset α) (mshape : List Nat) (reader : ChunkReader α)
    (buf : List Nat → α) (w : WorkItem) : Except PyErr (List Nat → α) :=
  let arr := reader w.coord w.chunkSlice
  if chunkArrBad ds mshape arr then
    Except.error (PyErr.runtimeError "Invalid shape/dtype of chunk covering coordinate")
  else if !broadcastsTo arr.shape (w.outSlice.map Slice.size) then
    Except.error (PyErr.valueError "could not broadcast input array")
  else
    Except.ok (writeBack buf w.outSlice arr)

/-- The `opt_selection_read` loop over all work items, counting one chunk
payload read per processed item. -/
def readLoop (ds : Dataset α) (mshape : List Nat) (reader : ChunkReader α) :
    List WorkItem → (List Nat → α) → Nat → Except PyErr ((List Nat → α) × Nat)
  | [], buf, n => Except.ok (buf, n)
  | w :: ws, buf, n =>
    match processItem ds mshape reader buf w with
    | Except.error e => Except.error e
    | Except.ok buf2 => readLoop ds mshape reader ws buf2 (n + 1)

/-- C-order flat position of multi-index `idx` in an array of shape
`shape`. -/
def flatIdx (shape idx : List Nat) : Nat :=
  (shape.zip idx).foldl (fun a p => a * p.1 + p.2) 0

/-- Multi-index of C-order flat position `n` in an array of shape `shape`. -/
def unflat : List Nat → Nat → List Nat
  | [], _ => []
  | _ :: sh, n => n / sh.prod :: unflat sh (n % sh.prod)

/-- numpy `a.reshape(newShape)`: reindexing through the C-order flat
position. -/
def reshape (oldShape newShape : List Nat) (val : List Nat → α) : List Nat → α :=
  fun q => val (unflat oldShape (flatIdx newShape q))

/-- The value returned by `opt_selection_read`: a numpy scalar, or an array
with the given shape and contents; `nreads` counts the chunk payload reads
performed. -/
structure ReadResult (α : Type) where
  scalar : Bool
  shape : List Nat
  val : List Nat → α
  nreads : Nat

/-- Embeds `opt_selection_read(dataset, selection)`, with the uninitialized
`numpy.empty` buffer supplied as `init` and the chunk storage supplied as
`reader`.  The `new_dtype` argument is not modelled: element values are
abstract, so dtype casting is out of scope.  An empty memory shape returns
the empty buffer reshaped to the output shape with no chunk read; after the
loop, `slice_arr[()]` is taken for an empty output shape — in numpy a
scalar exactly when the buffer itself has rank 0, and otherwise a view of
the whole (rank ≥ 1) buffer — and any other output shape reshapes the
buffer. -/
def opt_selection_read (ds : Dataset α) (sel : Selection) (reader : ChunkReader α)
    (init : List Nat → α) : Except PyErr (ReadResult α) :=
  if sel.mshape.contains 0 then
    Except.ok ⟨false, sel.array_shape, reshape sel.mshape sel.array_shape init, 0⟩
  else
    match readLoop ds sel.mshape reader (workItems ds.shape ds.chunks sel.start sel.mshape) init 0 with
    | Except.error e => Except.error e
    | Except.ok (buf, n) =>
      if sel.array_shape = [] then
        if sel.mshape = [] then Except.ok ⟨true, [], buf, n⟩
        else Except.ok ⟨false, sel.mshape, buf, n⟩
      else Except.ok ⟨false, sel.array_shape, reshape sel.mshape sel.array_shape buf, n⟩

/-- Distinguishes `NoOptSlicingError` (expected, triggers the generic fallback path)
versus a fatal Python exception escaping the optimized read. -/
inductive ReadError where
  | noOptSlicing (msg : String)
  | fatal (e : PyErr)
deriving Repr, DecidableEq

/-- Embeds `opt_slice_read`: the dataset check (`_blosc2_opt_slicing_ok`, i.e.
SIMPLE extent and `opt_slicing_dataset_ok`), the global enablement check
and the selection check, each raising the catchable `NoOptSlicingError`,
then the optimized read of the normalized selection. -/
def opt_slice_read (m : H5Meta) (ds : Dataset α) (sel : Selection) (env : Option String)
    (reader : ChunkReader α) (init : List Nat → α) : Except ReadError (ReadResult α) :=
  if !(m.extentSimple && opt_slicing_dataset_ok m) then
    Except.error (ReadError.noOptSlicing "Dataset is not suitable for Blosc2 optimized slicing")
  else if !opt_slicing_enabled env then
    Except.error (ReadError.noOptSlicing "Blosc2 optimized slicing is unavailable or disabled")
  else if !opt_slicing_selection_ok sel then
    Except.error (ReadError.noOptSlicing "Selection is not suitable for Blosc2 optimized slicing")
  else
    match opt_selection_read ds sel reader init with
    | Except.error e => Except.error (ReadError.fatal e)
    | Except.ok r => Except.ok r

/-- The output shape of a selection: the counts at the axes not indexed by
a bare integer. -/
def squeezeShape (cnt : List Nat) (scalar : List Bool) : List Nat :=
  ((cnt.zip scalar).filter (fun cs => !cs.2)).map (fun cs => cs.1)

/-- Insert a `0` at each integer-indexed axis of a post-squeeze output
index, recovering the pre-squeeze buffer index. -/
def expandIdx : List Bool → List Nat → List Nat
  | true :: ss, q => 0 :: expandIdx ss q
  | false :: ss, x :: q => x :: expandIdx ss q
  | _, _ => []

/-- Modelled from the spec: the reference generic-path read (the h5py
filter-pipeline read the optimized path must agree with): the element at
post-squeeze output index `q` is the dataset value at
`start + (q with 0 inserted at integer-indexed axes)`. -/
def genericRead (ds : Dataset α) (sel : Selection) (q : List Nat) : α :=
  ds.data (zipAdd sel.start (expandIdx sel.scalar q))

/-- C5 failing-input dataset: a 12×5 dataset in 5×5 chunks. -/
def dsC5 : Dataset Int := ⟨[12, 5], [5, 5], "i8", fun l => (l.headD 0 : Int)⟩

/-- The normalized selection for `dset[0:12:11, 0:1:3353953467947191203]`
over `dsC5`: starts `(0, 0)`, counts `(2, 1)`, steps
`(11, 3353953467947191203)`.  The product of the steps is
`36893488147419103233 = 2 * 2^64 + 1`, whose `int64` value is 1. -/
def selC5bad : Selection :=
  ⟨true, [0, 0], [2, 1], [11, 3353953467947191203], [false, false]⟩

/-- The normalized selection for `dset[0:10:2]` on a 1-d dataset: step 2. -/
def selC5two : Selection := ⟨true, [0], [5], [2], [false]⟩

/-- Dataset metadata passing every dataset-level eligibility check, for
exercising `opt_slice_read` on `selC5bad`. -/
def mC5 : H5Meta := ⟨true, true, ["32026"], true, "r", "Linux"⟩

/-- C5: refuted as stated — the check accepts the reachable normalized
selection `dset[0:12:11, 0:1:3353953467947191203]` although its first axis
has step 11 with two selected positions, because `numpy.prod` computes the
step product in wrapping 64-bit arithmetic and
`11 * 3353953467947191203 = 2 * 2^64 + 1` wraps to 1; `opt_slice_read` then
proceeds with the optimized read instead of raising the ineligibility
signal (the plain step-2 selection is still rejected as the claim says). -/
theorem c5_step_product_wraparound :
    ¬ (∀ s ∈ selC5bad.step, s = 1)
    ∧ opt_slicing_selection_ok selC5bad = true
    ∧ opt_slicing_selection_ok selC5two = false
    ∧ ∃ r, opt_slice_read mC5 dsC5 selC5bad none (goodReader dsC5) (fun _ => 0)
        = Except.ok r := by
  refine ⟨by decide, by decide, by decide, ⟨_, rfl⟩⟩

/-- C6: the dataset-level eligibility check passes exactly when the dataset
is chunked, its filters contain the Blosc2 numeric id `'32026'`, its dtype
is in native byte order, and it is open read-only or the platform is not
Windows. -/
theorem c6_dataset_eligibility (m : H5Meta) :
    opt_slicing_dataset_ok m = true ↔
      (m.chunksDefined = true ∧ "32026" ∈ m.filters ∧ m.dtypeIsNative = true
        ∧ (m.fileMode = "r" ∨ pyLower m.platformSystem ≠ "windows")) := by
  simp only [opt_slicing_dataset_ok, Bool.and_eq_true, Bool.or_eq_true, beq_iff_eq,
    bne_iff_ne, ne_eq, List.contains, List.elem_iff]
  tauto

/-- C10: the global enable check returns `false` exactly when the
`BLOSC2_FILTER` environment variable is set and parses as a non-zero
base-10 integer; unset, `"0"` or unparsable values leave the optimization
enabled. -/
theorem c10_enable_check (env : Option String) :
    opt_slicing_enabled env = false ↔
      ∃ s, env = some s ∧ ∃ n, pyIntBase10 s = some n ∧ n ≠ 0 := by
  cases env with
  | none =>
    have htrue : opt_slicing_enabled none = true := by decide
    rw [htrue]
    simp
  | some s =>
    cases h : pyIntBase10 s with
    | none =>
      have htrue : opt_slicing_enabled (some s) = true := by
        simp [opt_slicing_enabled, h]
      rw [htrue]
      simp only [Bool.true_eq_false, false_iff]
      rintro ⟨s', hs', n, hn, -⟩
      obtain rfl : s = s' := Option.some.inj hs'
      exact absurd (h.symm.trans hn) (by simp)
    | some n =>
      have heq : opt_slicing_enabled (some s) = (n == 0) := by
        simp [opt_slicing_enabled, h]
      rw [heq]
      constructor
      · intro hx
        refine ⟨s, rfl, n, h, ?_⟩
        intro h0
        subst h0
        simp at hx
      · rintro ⟨s', hs', n', hn', hn'0⟩
        obtain rfl : s = s' := Option.some.inj hs'
        obtain rfl : n = n' := Option.some.inj (h.symm.trans hn')
        simpa using hn'0

/-- Did the `Except` computation succeed? -/
def isOkE {ε β : Type} : Except ε β → Bool
  | Except.ok _ => true
  | Except.error _ => false

/-- Did the computation abort with the integrity `RuntimeError`? -/
def isRuntimeE {β : Type} : Except PyErr β → Bool
  | Except.error (PyErr.runtimeError _) => true
  | _ => false

/-- Did the computation abort with a numpy broadcast `ValueError`? -/
def isValueE {β : Type} : Except PyErr β → Bool
  | Except.error (PyErr.valueError _) => true
  | _ => false

/-- The `scalar` flag of a successful read. -/
def resScalar {α : Type} : Except PyErr (ReadResult α) → Option Bool
  | Except.ok r => some r.scalar
  | Except.error _ => none

/-- The shape of a successful read. -/
def resShape {α : Type} : Except PyErr (ReadResult α) → Option (List Nat)
  | Except.ok r => some r.shape
  | Except.error _ => none

/-- The read count of a successful read. -/
def resNreads {α : Type} : Except PyErr (ReadResult α) → Option Nat
  | Except.ok r => some r.nreads
  | Except.error _ => none

/-- C9 counterexample input: 1-d dataset of extent 10, chunk extent 5. -/
def dsC9 : Dataset Int := ⟨[10], [5], "i8", fun l => (l.headD 0 : Int)⟩

/-- C9: refuted as stated — for the selection `[2:8)` the first work item
passes coordinate `(2,)` to the per-coordinate byte-offset lookup, and `2`
is not a multiple of the chunk extent `5`.  (The code passes
`chunk_slice_start = csl.start`, the start of the intersection of the
chunk with the selection, which is chunk-aligned only when the selection
start is.) -/
theorem c9_counterexample :
    ∃ w ∈ workItems dsC9.shape dsC9.chunks [2] [6], ¬ (5 ∣ w.coord.getD 0 0) := by
  refine ⟨⟨[2], [⟨2, 5⟩], [⟨0, 3⟩]⟩, by decide, by decide⟩

/-- C4 counterexample inputs: dataset of extent 10 with chunk extent 5 and
the selection `[2:6)`; the storage returns, for every chunk, a sub-array of
shape `(4,)` with the dataset's dtype. -/
def dsC4 : Dataset Int := ⟨[10], [5], "i8", fun _ => (0 : Int)⟩

/-- The selection `[2:6)` over `dsC4`. -/
def selC4 : Selection := ⟨true, [2], [4], [1], [false]⟩

/-- A chunk reader returning shape-`(4,)` sub-arrays regardless of the
requested intra-chunk slice. -/
def badReaderC4 : ChunkReader Int := fun _ _ => ⟨"i8", [4], fun _ => 0⟩

/-- C4: refuted as stated — the first work item requests the intra-chunk
slice `[2:5)` (shape `(3,)`) but receives shape `(4,)`, exceeding the
requested intra-chunk slice shape on axis 0; the claim says this raises the
fatal DataIntegrityError, yet the integrity validation passes it (the code
compares the sub-array shape against the whole selection's memory shape
`(4,)` with Python tuple comparison, not against the intra-chunk slice
shape per axis) and the read instead aborts with numpy's broadcast
`ValueError` at the assignment `slice_arr[chunk_as_slice_slice] =
chunk_slice_arr`, a different exception than the one the claim names. -/
theorem c4_counterexample :
    (∃ w ∈ workItems dsC4.shape dsC4.chunks selC4.start selC4.mshape,
        Slice.size (w.chunkSlice.getD 0 ⟨0, 0⟩)
          < (badReaderC4 w.coord w.chunkSlice).shape.getD 0 0)
    ∧ isRuntimeE (opt_selection_read dsC4 selC4 badReaderC4 (fun _ => 0)) = false
    ∧ isValueE (opt_selection_read dsC4 selC4 badReaderC4 (fun _ => 0)) = true := by
  refine ⟨⟨⟨[2], [⟨2, 5⟩], [⟨0, 3⟩]⟩, by decide, by decide⟩, rfl, rfl⟩

/-- C8 failing input: 1-d dataset of extent 5 in one chunk, request
`dset[3]` (every axis indexed by a bare integer, output shape `()`). -/
def dsC8 : Dataset Int := ⟨[5], [5], "i8", fun l => (l.headD 0 : Int)⟩

/-- The normalized selection for `dset[3]`: start `(3,)`, count `(1,)`,
scalar flags `(True,)`, output shape `()`. -/
def selC8 : Selection := ⟨true, [3], [1], [1], [true]⟩

/-- C8: the code slip at the failing input — the output shape is the empty
tuple, yet the returned value is not a scalar: `slice_arr[()]` is applied
to the rank-1 buffer of shape `(1,)`, and numpy returns a view of that
buffer (a one-element array), not the bare scalar the spec (and the code's
own `# scalar result` comment) promise. -/
theorem c8_scalar_slip :
    Selection.array_shape selC8 = ([] : List Nat)
    ∧ resScalar (opt_selection_read dsC8 selC8 (goodReader dsC8) (fun _ => 0)) = some false
    ∧ resShape (opt_selection_read dsC8 selC8 (goodReader dsC8) (fun _ => 0)) = some [1] := by
  exact ⟨rfl, rfl, rfl⟩

section AxisArithmetic

/-- Any index is below the end of the chunk its division points at. -/
theorem lt_div_succ_mul (x c : Nat) (hc : 0 < c) : x < (x / c + 1) * c :=
  (Nat.div_lt_iff_lt_mul hc).mp (Nat.lt_succ_self _)

/-- Membership in the per-axis chunk-index enumeration. -/
theorem mem_axisChunkIdxs (st cnt csh k : Nat) :
    k ∈ axisChunkIdxs st cnt csh ↔ st / csh ≤ k ∧ k ≤ (st + cnt - 1) / csh := by
  simp only [axisChunkIdxs, List.mem_map, List.mem_range]
  constructor
  · rintro ⟨j, hj, rfl⟩
    omega
  · rintro ⟨h1, h2⟩
    exact ⟨k - st / csh, by omega, by omega⟩

/-- The chunk pointed at by division contains the index. -/
theorem memb_axisChunkSlice_canon (sh st cnt csh x : Nat) (hc : 0 < csh)
    (h1 : st ≤ x) (h2 : x < st + cnt) (h3 : x < sh) :
    (axisChunkSlice sh st cnt csh (x / csh)).memb x = true := by
  have hle : x / csh * csh ≤ x := Nat.div_mul_le_self x csh
  have hlt : x < x / csh * csh + csh := by
    have h := lt_div_succ_mul x csh hc
    rw [Nat.add_mul, one_mul] at h
    exact h
  simp only [axisChunkSlice, Slice.memb, Bool.and_eq_true, decide_eq_true_eq]
  generalize x / csh * csh = A at hle hlt ⊢
  omega

/-- Only the chunk pointed at by division contains the index. -/
theorem memb_axisChunkSlice_unique (sh st cnt csh k x : Nat) (hc : 0 < csh)
    (h : (axisChunkSlice sh st cnt csh k).memb x = true) : k = x / csh := by
  simp only [axisChunkSlice, Slice.memb, Bool.and_eq_true, decide_eq_true_eq] at h
  have h1 : k * csh ≤ x := le_trans (le_max_right _ _) h.1
  have h2 : x < (k + 1) * csh := by
    rw [Nat.succ_mul]
    exact lt_of_lt_of_le h.2 (le_trans (min_le_right _ _) (min_le_left _ _))
  exact (Nat.div_eq_of_lt_le h1 h2).symm

/-- Facts about the start of a non-empty per-axis intersection with chunk
`k`: it lies inside the chunk, division recovers `k`, and the remainder is
the shift by the chunk start. -/
theorem inter_start_facts (st csh k a b : Nat) (hc : 0 < csh)
    (ha : a = max st (k * csh)) (hab : a < b) (hb : b ≤ k * csh + csh) :
    k * csh ≤ a ∧ a < k * csh + csh ∧ a / csh = k ∧ a % csh = a - k * csh := by
  have h1 : k * csh ≤ a := ha ▸ le_max_right _ _
  have h2 : a < k * csh + csh := lt_of_lt_of_le hab hb
  have hdiv : a / csh = k := by
    refine Nat.div_eq_of_lt_le h1 ?_
    rw [Nat.succ_mul]
    exact h2
  have hdm := Nat.div_add_mod a csh
  rw [hdiv, Nat.mul_comm] at hdm
  refine ⟨h1, h2, hdiv, ?_⟩
  generalize k * csh = P at hdm h1 h2 ⊢
  omega

/-- The per-axis slices enumerated for a positive-count selection within
bounds are never empty. -/
theorem axisChunkSlice_nonempty (sh st cnt csh k : Nat) (hc : 0 < csh)
    (hcnt : 0 < cnt) (hinv : st + cnt ≤ sh)
    (hk : st / csh ≤ k ∧ k ≤ (st + cnt - 1) / csh) :
    (axisChunkSlice sh st cnt csh k).start < (axisChunkSlice sh st cnt csh k).stop := by
  have hk1 : st < (k + 1) * csh := by
    have h := lt_div_succ_mul st csh hc
    have : (st / csh + 1) * csh ≤ (k + 1) * csh := Nat.mul_le_mul_right csh (by omega)
    omega
  have hk2 : k * csh ≤ st + cnt - 1 := by
    have h : k * csh ≤ (st + cnt - 1) / csh * csh := Nat.mul_le_mul_right csh hk.2
    exact le_trans h (Nat.div_mul_le_self _ _)
  simp only [axisChunkSlice]
  rw [Nat.succ_mul] at hk1
  generalize k * csh = P at hk1 hk2 ⊢
  omega

end AxisArithmetic

section LoopLemmas

/-- Equal shapes always broadcast. -/
theorem broadcastsTo_refl (l : List Nat) : broadcastsTo l l = true := by
  rw [broadcastsTo]
  generalize l.reverse = m
  induction m with
  | nil => rfl
  | cons s ss ih => simp [bcastOkRev, ih]

/-- On reversed lists of equal length with the destination index strictly
below the source extent on every axis, the broadcast source index is the
destination index itself. -/
theorem bcastIdxRev_exact :
    ∀ (sr or' : List Nat), sr.length = or'.length →
      (∀ j, j < sr.length → or'.getD j 0 < sr.getD j 0) →
      bcastIdxRev sr or' = or' := by
  intro sr
  induction sr with
  | nil =>
    intro or' hl _
    cases or' with
    | nil => rfl
    | cons o os => simp at hl
  | cons s ss ih =>
    intro or' hl hp
    cases or' with
    | nil => simp at hl
    | cons o os =>
      have h0 : o < s := by simpa using hp 0 (by simp)
      simp only [bcastIdxRev]
      rw [ih os (by simpa using hl)
        (fun j hj => by simpa [List.getD_cons_succ] using hp (j + 1) (by simpa using Nat.succ_lt_succ hj))]
      congr 1
      by_cases h1 : s = 1
      · simp only [h1, beq_self_eq_true, if_true]
        omega
      · simp [h1]

/-- Reads `getD` through a list reversal. -/
theorem getD_reverse (l : List Nat) (j : Nat) (hj : j < l.length) :
    l.reverse.getD j 0 = l.getD (l.length - 1 - j) 0 := by
  rw [List.getD_eq_getElem _ _ (by simpa using hj),
    List.getD_eq_getElem _ _ (by omega), List.getElem_reverse]

/-- When the region index is in range of the source shape on every axis
(equal ranks, pointwise strict bound), numpy broadcast assignment reads the
source at the region index itself. -/
theorem bcastIdx_exact (S o : List Nat) (hlen : S.length = o.length)
    (hlt : ∀ i, i < S.length → o.getD i 0 < S.getD i 0) : bcastIdx S o = o := by
  have hrev : bcastIdxRev S.reverse o.reverse = o.reverse := by
    refine bcastIdxRev_exact S.reverse o.reverse (by simp [hlen]) ?_
    intro j hj
    have hjS : j < S.length := by simpa using hj
    rw [getD_reverse S j hjS, getD_reverse o j (by omega)]
    have hidx : o.length - 1 - j = S.length - 1 - j := by omega
    rw [hidx]
    exact hlt _ (by omega)
  rw [bcastIdx, hrev, List.reverse_reverse]

/-- The read loop fails exactly when some work item's sub-array fails the
integrity test or fails to broadcast to its output region. -/
theorem readLoop_error_iff {α : Type} (ds : Dataset α) (msh : List Nat)
    (reader : ChunkReader α) :
    ∀ (items : List WorkItem) (init : List Nat → α) (n : Nat),
    (∃ e, readLoop ds msh reader items init n = Except.error e) ↔
      ∃ w ∈ items, (chunkArrBad ds msh (reader w.coord w.chunkSlice) = true
        ∨ broadcastsTo (reader w.coord w.chunkSlice).shape
            (w.outSlice.map Slice.size) = false) := by
  intro items
  induction items with
  | nil => intro init n; simp [readLoop]
  | cons w ws ih =>
    intro init n
    simp only [readLoop, processItem]
    cases hbad : chunkArrBad ds msh (reader w.coord w.chunkSlice) with
    | true =>
      simp only [hbad, if_true]
      constructor
      · intro _
        exact ⟨w, List.mem_cons_self w ws, Or.inl hbad⟩
      · intro _
        exact ⟨_, rfl⟩
    | false =>
      simp only [hbad, Bool.false_eq_true, if_false]
      cases hbc : broadcastsTo (reader w.coord w.chunkSlice).shape
          (w.outSlice.map Slice.size) with
      | false =>
        simp only [hbc, Bool.not_false, if_true]
        constructor
        · intro _
          exact ⟨w, List.mem_cons_self w ws, Or.inr hbc⟩
        · intro _
          exact ⟨_, rfl⟩
      | true =>
        simp only [hbc, Bool.not_true, Bool.false_eq_true, if_false]
        constructor
        · intro h
          obtain ⟨w', hw', hd⟩ := (ih _ _).mp h
          exact ⟨w', List.mem_cons_of_mem w hw', hd⟩
        · rintro ⟨w', hw', hd⟩
          rcases List.mem_cons.mp hw' with rfl | hmem
          · rcases hd with hd | hd
            · rw [hbad] at hd
              cases hd
            · rw [hbc] at hd
              cases hd
          · exact (ih _ _).mpr ⟨w', hmem, hd⟩

/-- A `RuntimeError` from the read loop always comes from a work item whose
sub-array fails the integrity test. -/
theorem readLoop_runtimeError_imp {α : Type} (ds : Dataset α) (msh : List Nat)
    (reader : ChunkReader α) :
    ∀ (items : List WorkItem) (init : List Nat → α) (n : Nat) (m : String),
    readLoop ds msh reader items init n = Except.error (PyErr.runtimeError m) →
      ∃ w ∈ items, chunkArrBad ds msh (reader w.coord w.chunkSlice) = true := by
  intro items
  induction items with
  | nil => intro init n m h; simp [readLoop] at h
  | cons w ws ih =>
    intro init n m h
    simp only [readLoop, processItem] at h
    cases hbad : chunkArrBad ds msh (reader w.coord w.chunkSlice) with
    | true => exact ⟨w, List.mem_cons_self w ws, hbad⟩
    | false =>
      rw [hbad] at h
      simp only [Bool.false_eq_true, if_false] at h
      cases hbc : broadcastsTo (reader w.coord w.chunkSlice).shape
          (w.outSlice.map Slice.size) with
      | false =>
        rw [hbc] at h
        simp at h
      | true =>
        rw [hbc] at h
        simp only [Bool.not_true, Bool.false_eq_true, if_false] at h
        obtain ⟨w', hw', hb⟩ := ih _ _ m h
        exact ⟨w', List.mem_cons_of_mem w hw', hb⟩

/-- When every work item's sub-array broadcasts to its output region, the
read loop raises a `RuntimeError` exactly when some item fails the
integrity test. -/
theorem readLoop_runtimeError_iff {α : Type} (ds : Dataset α) (msh : List Nat)
    (reader : ChunkReader α) :
    ∀ (items : List WorkItem) (init : List Nat → α) (n : Nat),
    (∀ w ∈ items, broadcastsTo (reader w.coord w.chunkSlice).shape
        (w.outSlice.map Slice.size) = true) →
    ((∃ m, readLoop ds msh reader items init n = Except.error (PyErr.runtimeError m)) ↔
      ∃ w ∈ items, chunkArrBad ds msh (reader w.coord w.chunkSlice) = true) := by
  intro items
  induction items with
  | nil => intro init n _; simp [readLoop]
  | cons w ws ih =>
    intro init n hall
    have hbcw := hall w (List.mem_cons_self w ws)
    simp only [readLoop, processItem, hbcw, Bool.not_true, Bool.false_eq_true, if_false]
    cases hbad : chunkArrBad ds msh (reader w.coord w.chunkSlice) with
    | true =>
      simp only [hbad, if_true]
      constructor
      · intro _
        exact ⟨w, List.mem_cons_self w ws, hbad⟩
      · intro _
        exact ⟨_, rfl⟩
    | false =>
      simp only [hbad, Bool.false_eq_true, if_false]
      constructor
      · intro h
        obtain ⟨m, hm⟩ := h
        obtain ⟨w', hw', hb⟩ := (ih _ _ (fun w' hw' =>
          hall w' (List.mem_cons_of_mem w hw'))).mp ⟨m, hm⟩
        exact ⟨w', List.mem_cons_of_mem w hw', hb⟩
      · rintro ⟨w', hw', hb⟩
        rcases List.mem_cons.mp hw' with rfl | hmem
        · rw [hbad] at hb
          cases hb
        · exact (ih _ _ (fun w'' hw'' =>
            hall w'' (List.mem_cons_of_mem w hw''))).mpr ⟨w', hmem, hb⟩

/-- The assembly of the output buffer, as performed by a successful read
loop: each work item's sub-array is written over its output slice. -/
def assemble {α : Type} (reader : ChunkReader α) (items : List WorkItem)
    (init : List Nat → α) : List Nat → α :=
  items.foldl (fun buf w => writeBack buf w.outSlice (reader w.coord w.chunkSlice)) init

/-- When every work item passes the integrity test and its sub-array
broadcasts to its output region, the read loop succeeds with the assembled
buffer, counting one read per item. -/
theorem readLoop_ok {α : Type} (ds : Dataset α) (msh : List Nat)
    (reader : ChunkReader α) :
    ∀ (items : List WorkItem) (init : List Nat → α) (n : Nat),
    (∀ w ∈ items, chunkArrBad ds msh (reader w.coord w.chunkSlice) = false) →
    (∀ w ∈ items, broadcastsTo (reader w.coord w.chunkSlice).shape
        (w.outSlice.map Slice.size) = true) →
    readLoop ds msh reader items init n =
      Except.ok (assemble reader items init, n + items.length) := by
  intro items
  induction items with
  | nil => intro init n _ _; simp [readLoop, assemble]
  | cons w ws ih =>
    intro init n hgood hbcast
    have hw := hgood w (List.mem_cons_self w ws)
    have hwb := hbcast w (List.mem_cons_self w ws)
    simp only [readLoop, processItem, hw, hwb, Bool.not_true, Bool.false_eq_true, if_false]
    rw [ih _ _ (fun w' hw' => hgood w' (List.mem_cons_of_mem w hw'))
      (fun w' hw' => hbcast w' (List.mem_cons_of_mem w hw'))]
    simp [assemble, List.length_cons]
    omega

/-- Positions outside every work item's output slice keep the initial
buffer value. -/
theorem assemble_untouched {α : Type} (reader : ChunkReader α) (items : List WorkItem)
    (init : List Nat → α) (p : List Nat)
    (h : ∀ w ∈ items, inSlices w.outSlice p = false) :
    assemble reader items init p = init p := by
  induction items generalizing init with
  | nil => rfl
  | cons w ws ih =>
    have hw := h w (List.mem_cons_self w ws)
    rw [assemble, List.foldl_cons]
    rw [← assemble]
    rw [ih _ (fun w' hw' => h w' (List.mem_cons_of_mem w hw'))]
    simp [writeBack, hw]

/-- If some work item covers the position and every covering work item
writes the same value there, the assembled buffer holds that value. -/
theorem assemble_covered {α : Type} (reader : ChunkReader α) (items : List WorkItem)
    (init : List Nat → α) (p : List Nat) (v : α)
    (hval : ∀ w ∈ items, inSlices w.outSlice p = true →
      (reader w.coord w.chunkSlice).data
        (bcastIdx (reader w.coord w.chunkSlice).shape
          (List.zipWith (fun s x => x - s.start) w.outSlice p)) = v)
    (hex : ∃ w ∈ items, inSlices w.outSlice p = true) :
    assemble reader items init p = v := by
  induction items generalizing init with
  | nil => obtain ⟨w, hw, -⟩ := hex
           cases hw
  | cons w ws ih =>
    rw [assemble, List.foldl_cons, ← assemble]
    by_cases hws : ∃ w' ∈ ws, inSlices w'.outSlice p = true
    · exact ih _ (fun w' hw' hc => hval w' (List.mem_cons_of_mem w hw') hc) hws
    · have hcov : inSlices w.outSlice p = true := by
        obtain ⟨w', hw', hc⟩ := hex
        rcases List.mem_cons.mp hw' with rfl | hmem
        · exact hc
        · exact absurd ⟨w', hmem, hc⟩ hws
      have huntouched : ∀ w' ∈ ws, inSlices w'.outSlice p = false := by
        intro w' hw'
        cases hcw : inSlices w'.outSlice p with
        | false => rfl
        | true => exact absurd ⟨w', hw', hcw⟩ hws
      rw [assemble_untouched _ _ _ _ huntouched]
      simp only [writeBack, hcov, if_true]
      exact hval w (List.mem_cons_self w ws) hcov

end LoopLemmas

/-- C4 amended: the read aborts with a fatal error exactly when some work
item's returned sub-array fails the integrity validation — dtype different
from the dataset's, rank different from the selection's, or shape
lexicographically greater (Python tuple comparison) than the selection's
full memory shape, not the per-axis comparison against the intra-chunk
slice shape stated by the spec — or fails to broadcast to its output
region at the assignment; the fatal DataIntegrityError (`RuntimeError`)
specifically only ever arises from the integrity validation, and when
every sub-array broadcasts to its region it arises exactly when some item
fails that validation.  On any fatal error no result is returned. -/
theorem c4_error_classification {α : Type} (ds : Dataset α) (sel : Selection)
    (reader : ChunkReader α) (init : List Nat → α) (h0 : 0 ∉ sel.mshape) :
    ((∃ e, opt_selection_read ds sel reader init = Except.error e) ↔
      ∃ w ∈ workItems ds.shape ds.chunks sel.start sel.mshape,
        ((reader w.coord w.chunkSlice).dtype ≠ ds.dtype
          ∨ (reader w.coord w.chunkSlice).shape.length ≠ sel.mshape.length
          ∨ tupGt (reader w.coord w.chunkSlice).shape sel.mshape = true)
        ∨ broadcastsTo (reader w.coord w.chunkSlice).shape
            (w.outSlice.map Slice.size) = false)
    ∧ ((∃ m, opt_selection_read ds sel reader init
          = Except.error (PyErr.runtimeError m)) →
        ∃ w ∈ workItems ds.shape ds.chunks sel.start sel.mshape,
          (reader w.coord w.chunkSlice).dtype ≠ ds.dtype
          ∨ (reader w.coord w.chunkSlice).shape.length ≠ sel.mshape.length
          ∨ tupGt (reader w.coord w.chunkSlice).shape sel.mshape = true)
    ∧ ((∀ w ∈ workItems ds.shape ds.chunks sel.start sel.mshape,
          broadcastsTo (reader w.coord w.chunkSlice).shape
            (w.outSlice.map Slice.size) = true) →
        ((∃ m, opt_selection_read ds sel reader init
            = Except.error (PyErr.runtimeError m)) ↔
          ∃ w ∈ workItems ds.shape ds.chunks sel.start sel.mshape,
            (reader w.coord w.chunkSlice).dtype ≠ ds.dtype
            ∨ (reader w.coord w.chunkSlice).shape.length ≠ sel.mshape.length
            ∨ tupGt (reader w.coord w.chunkSlice).shape sel.mshape = true)) := by
  have hc : sel.mshape.contains 0 = false := by
    cases h : sel.mshape.contains 0 with
    | false => rfl
    | true => exact absurd (List.elem_iff.mp h) h0
  have hbad : ∀ w : WorkItem,
      (chunkArrBad ds sel.mshape (reader w.coord w.chunkSlice) = true) ↔
        ((reader w.coord w.chunkSlice).dtype ≠ ds.dtype
          ∨ (reader w.coord w.chunkSlice).shape.length ≠ sel.mshape.length
          ∨ tupGt (reader w.coord w.chunkSlice).shape sel.mshape = true) := by
    intro w
    simp only [chunkArrBad, Bool.or_eq_true, bne_iff_ne, ne_eq]
    tauto
  have hpack : ∀ e : PyErr, (opt_selection_read ds sel reader init = Except.error e) ↔
      (readLoop ds sel.mshape reader (workItems ds.shape ds.chunks sel.start sel.mshape)
        init 0 = Except.error e) := by
    intro e
    rw [opt_selection_read]
    simp only [hc, Bool.false_eq_true, if_false]
    cases hres : readLoop ds sel.mshape reader
        (workItems ds.shape ds.chunks sel.start sel.mshape) init 0 with
    | error e' => simp
    | ok bufn =>
      obtain ⟨buf, n⟩ := bufn
      constructor
      · intro hcontra
        by_cases h1 : sel.array_shape = []
        · by_cases h2 : sel.mshape = []
          · simp [h1, h2] at hcontra
          · simp [h1, h2] at hcontra
        · simp [h1] at hcontra
      · intro hcontra
        simp at hcontra
  refine ⟨?_, ?_, ?_⟩
  · constructor
    · rintro ⟨e, he⟩
      obtain ⟨w, hw, hd⟩ := (readLoop_error_iff ds sel.mshape reader _ init 0).mp
        ⟨e, (hpack e).mp he⟩
      exact ⟨w, hw, hd.imp (fun hb => (hbad w).mp hb) id⟩
    · rintro ⟨w, hw, hd⟩
      obtain ⟨e, he⟩ := (readLoop_error_iff ds sel.mshape reader _ init 0).mpr
        ⟨w, hw, hd.imp (fun hb => (hbad w).mpr hb) id⟩
      exact ⟨e, (hpack e).mpr he⟩
  · rintro ⟨m, hm⟩
    obtain ⟨w, hw, hb⟩ := readLoop_runtimeError_imp ds sel.mshape reader _ init 0 m
      ((hpack _).mp hm)
    exact ⟨w, hw, (hbad w).mp hb⟩
  · intro hall
    constructor
    · rintro ⟨m, hm⟩
      obtain ⟨w, hw, hb⟩ := (readLoop_runtimeError_iff ds sel.mshape reader _ init 0
        hall).mp ⟨m, (hpack _).mp hm⟩
      exact ⟨w, hw, (hbad w).mp hb⟩
    · rintro ⟨w, hw, hdis⟩
      obtain ⟨m, hm⟩ := (readLoop_runtimeError_iff ds sel.mshape reader _ init 0 hall).mpr
        ⟨w, hw, (hbad w).mpr hdis⟩
      exact ⟨m, (hpack _).mpr hm⟩

/-- Witness for the amended C4 at the concrete bad-reader inputs. -/
theorem c4_error_classification_witness :
    ((0 : Nat) ∉ selC4.mshape)
    ∧ (((∃ e, opt_selection_read dsC4 selC4 badReaderC4 (fun _ => 0) = Except.error e) ↔
        ∃ w ∈ workItems dsC4.shape dsC4.chunks selC4.start selC4.mshape,
          ((badReaderC4 w.coord w.chunkSlice).dtype ≠ dsC4.dtype
            ∨ (badReaderC4 w.coord w.chunkSlice).shape.length ≠ selC4.mshape.length
            ∨ tupGt (badReaderC4 w.coord w.chunkSlice).shape selC4.mshape = true)
          ∨ broadcastsTo (badReaderC4 w.coord w.chunkSlice).shape
              (w.outSlice.map Slice.size) = false)
      ∧ ((∃ m, opt_selection_read dsC4 selC4 badReaderC4 (fun _ => 0)
            = Except.error (PyErr.runtimeError m)) →
          ∃ w ∈ workItems dsC4.shape dsC4.chunks selC4.start selC4.mshape,
            (badReaderC4 w.coord w.chunkSlice).dtype ≠ dsC4.dtype
            ∨ (badReaderC4 w.coord w.chunkSlice).shape.length ≠ selC4.mshape.length
            ∨ tupGt (badReaderC4 w.coord w.chunkSlice).shape selC4.mshape = true)
      ∧ ((∀ w ∈ workItems dsC4.shape dsC4.chunks selC4.start selC4.mshape,
            broadcastsTo (badReaderC4 w.coord w.chunkSlice).shape
              (w.outSlice.map Slice.size) = true) →
          ((∃ m, opt_selection_read dsC4 selC4 badReaderC4 (fun _ => 0)
              = Except.error (PyErr.runtimeError m)) ↔
            ∃ w ∈ workItems dsC4.shape dsC4.chunks selC4.start selC4.mshape,
              (badReaderC4 w.coord w.chunkSlice).dtype ≠ dsC4.dtype
              ∨ (badReaderC4 w.coord w.chunkSlice).shape.length ≠ selC4.mshape.length
              ∨ tupGt (badReaderC4 w.coord w.chunkSlice).shape selC4.mshape = true))) :=
  ⟨by decide, c4_error_classification dsC4 selC4 badReaderC4 (fun _ => 0) (by decide)⟩

/-- C7: a selection whose memory shape has a zero axis returns an empty
array of the output shape immediately: no chunk is read (`nreads = 0` and
the result does not depend on the chunk reader at all), the result is an
array (not a scalar) of the output shape, and that shape has a zero axis. -/
theorem c7_empty_selection {α : Type} (ds : Dataset α) (sel : Selection)
    (reader : ChunkReader α) (init : List Nat → α)
    (hlen : sel.scalar.length = sel.count.length)
    (hsc : ∀ i, i < sel.count.length → sel.scalar.getD i false = true →
      sel.count.getD i 0 = 1)
    (h0 : 0 ∈ sel.mshape) :
    ∃ r, opt_selection_read ds sel reader init = Except.ok r
      ∧ r.nreads = 0 ∧ r.scalar = false ∧ r.shape = sel.array_shape
      ∧ 0 ∈ r.shape
      ∧ ∀ reader' : ChunkReader α, opt_selection_read ds sel reader' init = Except.ok r := by
  have hc : sel.mshape.contains 0 = true := List.elem_iff.mpr h0
  refine ⟨⟨false, sel.array_shape, reshape sel.mshape sel.array_shape init, 0⟩,
    ?_, rfl, rfl, rfl, ?_, ?_⟩
  · rw [opt_selection_read]
    simp [hc]
    exact fun h => absurd h0 h
  · have h0' : 0 ∈ sel.count := h0
    obtain ⟨i, hi, hgi⟩ := List.mem_iff_getElem.mp h0'
    have hsl : i < sel.scalar.length := by omega
    have hscal_false : sel.scalar[i] = false := by
      cases hsf : sel.scalar[i] with
      | false => rfl
      | true =>
        have h1 := hsc i hi (by rw [List.getD_eq_getElem _ _ hsl, hsf])
        rw [List.getD_eq_getElem _ _ hi, hgi] at h1
        cases h1
    have hzl : i < (sel.count.zip sel.scalar).length := by
      rw [List.length_zip]
      omega
    have hzip : (sel.count.zip sel.scalar)[i] = (0, false) := by
      rw [List.getElem_zip, hgi, hscal_false]
    have hmemz : ((0 : Nat), false) ∈ sel.count.zip sel.scalar := by
      rw [← hzip]
      exact List.getElem_mem hzl
    show (0 : Nat) ∈ Selection.array_shape sel
    exact List.mem_map.mpr ⟨(0, false), List.mem_filter.mpr ⟨hmemz, by simp⟩, rfl⟩
  · intro reader'
    rw [opt_selection_read]
    simp [hc]
    exact fun h => absurd h0 h

/-- C7 concrete inputs: a 10×10 dataset in 5×5 chunks. -/
def dsC7 : Dataset Int := ⟨[10, 10], [5, 5], "i8", fun _ => 0⟩

/-- A selection with a zero-length second axis. -/
def selC7 : Selection := ⟨true, [3, 0], [4, 0], [1, 1], [false, false]⟩

/-- Witness for C7 at a concrete empty selection. -/
theorem c7_empty_selection_witness :
    (selC7.scalar.length = selC7.count.length)
    ∧ (∀ i, i < selC7.count.length → selC7.scalar.getD i false = true →
        selC7.count.getD i 0 = 1)
    ∧ (0 ∈ selC7.mshape)
    ∧ ∃ r, opt_selection_read dsC7 selC7 (goodReader dsC7) (fun _ => 0) = Except.ok r
      ∧ r.nreads = 0 ∧ r.scalar = false ∧ r.shape = selC7.array_shape
      ∧ 0 ∈ r.shape
      ∧ ∀ reader' : ChunkReader Int,
          opt_selection_read dsC7 selC7 reader' (fun _ => 0) = Except.ok r :=
  ⟨rfl, by decide, by decide,
    c7_empty_selection dsC7 selC7 (goodReader dsC7) (fun _ => 0) rfl (by decide) (by decide)⟩

section ListPlumbing

/-- Evaluates `getD` through a `map`, with a chosen preimage default. -/
theorem getD_map_at {β γ : Type} (f : β → γ) (d : γ) (db : β) (l : List β) (i : Nat)
    (h : i < l.length) : (l.map f).getD i d = f (l.getD i db) := by
  rw [List.getD_eq_getElem _ _ (by simpa using h), List.getElem_map,
    List.getD_eq_getElem _ _ h]

/-- Evaluates `getD` through a `map` over a `zip`. -/
theorem getD_map_zip_at {β γ δ : Type} (f : β × γ → δ) (d : δ) (db : β) (dc : γ)
    (l1 : List β) (l2 : List γ) (i : Nat) (h1 : i < l1.length) (h2 : i < l2.length) :
    ((l1.zip l2).map f).getD i d = f (l1.getD i db, l2.getD i dc) := by
  have hz : i < (l1.zip l2).length := by
    rw [List.length_zip]
    omega
  rw [List.getD_eq_getElem _ _ (by simpa using hz), List.getElem_map, List.getElem_zip,
    List.getD_eq_getElem _ _ h1, List.getD_eq_getElem _ _ h2]

/-- Evaluates `getD` through a `zipWith`. -/
theorem getD_zipWith_at {β γ δ : Type} (f : β → γ → δ) (d : δ) (db : β) (dc : γ)
    (l1 : List β) (l2 : List γ) (i : Nat) (h1 : i < l1.length) (h2 : i < l2.length) :
    (List.zipWith f l1 l2).getD i d = f (l1.getD i db) (l2.getD i dc) := by
  have hz : i < (List.zipWith f l1 l2).length := by
    rw [List.length_zipWith]
    omega
  rw [List.getD_eq_getElem _ _ hz, List.getElem_zipWith,
    List.getD_eq_getElem _ _ h1, List.getD_eq_getElem _ _ h2]

/-- Two lists with equal `getD` values at all positions below their common
length are equal. -/
theorem ext_getD {β : Type} (d : β) (l1 l2 : List β) (hlen : l1.length = l2.length)
    (h : ∀ i, i < l1.length → l1.getD i d = l2.getD i d) : l1 = l2 := by
  apply List.ext_getElem hlen
  intro i h1 h2
  have := h i h1
  rwa [List.getD_eq_getElem _ _ h1, List.getD_eq_getElem _ _ h2] at this

/-- Membership in the Cartesian product is memberwise membership. -/
theorem mem_cartProd {β : Type} (d : β) :
    ∀ (ls : List (List β)) (t : List β),
      t ∈ cartProd ls ↔
        (t.length = ls.length ∧ ∀ i, i < ls.length → t.getD i d ∈ ls.getD i []) := by
  intro ls
  induction ls with
  | nil =>
    intro t
    simp only [cartProd, List.mem_singleton, List.length_nil]
    constructor
    · rintro rfl
      exact ⟨rfl, fun i hi => absurd hi (by omega)⟩
    · rintro ⟨hlen, -⟩
      exact List.length_eq_zero.mp hlen
  | cons xs ls ih =>
    intro t
    simp only [cartProd, List.mem_flatMap, List.mem_map, List.length_cons]
    constructor
    · rintro ⟨x, hx, t', ht', rfl⟩
      obtain ⟨hlen', hmem'⟩ := (ih t').mp ht'
      refine ⟨by simp [hlen'], ?_⟩
      intro i hi
      cases i with
      | zero => simpa using hx
      | succ j =>
        simp only [List.getD_cons_succ]
        exact hmem' j (by omega)
    · rintro ⟨hlen, hmem⟩
      cases t with
      | nil => simp at hlen
      | cons x t' =>
        refine ⟨x, by simpa using hmem 0 (by omega), t', ?_, rfl⟩
        refine (ih t').mpr ⟨by simpa using hlen, ?_⟩
        intro j hj
        simpa [List.getD_cons_succ] using hmem (j + 1) (by omega)

/-- Shows `countP` is one when the list has no duplicates and exactly one member
satisfies the predicate. -/
theorem countP_eq_one_of_unique {γ : Type} (q : γ → Bool) :
    ∀ (l : List γ) (x : γ), x ∈ l → q x = true →
      (∀ y ∈ l, q y = true → y = x) → l.Nodup → l.countP q = 1 := by
  intro l
  induction l with
  | nil =>
    intro x hx
    cases hx
  | cons a tl ih =>
    intro x hx hqx huniq hnd
    rw [List.countP_cons]
    by_cases hqa : q a = true
    · have hax : a = x := huniq a (List.mem_cons_self a tl) hqa
      have h0 : tl.countP q = 0 := by
        rw [List.countP_eq_zero]
        intro y hy hqy
        have : y = x := huniq y (List.mem_cons_of_mem a hy) hqy
        subst this
        rw [hax] at hnd
        exact absurd hy (List.nodup_cons.mp hnd).1
      simp [h0, hqa]
    · have hx' : x ∈ tl := by
        rcases List.mem_cons.mp hx with rfl | h
        · exact absurd hqx hqa
        · exact h
      rw [ih x hx' hqx (fun y hy hqy => huniq y (List.mem_cons_of_mem a hy) hqy)
        (List.nodup_cons.mp hnd).2]
      simp [hqa]

/-- Shows `filterMap` preserves `Nodup` when the function is injective on the
list's members where it succeeds. -/
theorem nodup_filterMap_of_injOn {β γ : Type} (f : β → Option γ) :
    ∀ (l : List β),
      (∀ a ∈ l, ∀ a' ∈ l, ∀ b, f a = some b → f a' = some b → a = a') →
      l.Nodup → (l.filterMap f).Nodup := by
  intro l
  induction l with
  | nil =>
    intro _ _
    simp
  | cons a tl ih =>
    intro hinj hnd
    rw [List.filterMap_cons]
    have htl := ih (fun a1 h1 a2 h2 b hb1 hb2 =>
      hinj a1 (List.mem_cons_of_mem a h1) a2 (List.mem_cons_of_mem a h2) b hb1 hb2)
      (List.nodup_cons.mp hnd).2
    cases hfa : f a with
    | none => exact htl
    | some b =>
      refine List.nodup_cons.mpr ⟨?_, htl⟩
      intro hbmem
      obtain ⟨a', ha', hfa'⟩ := List.mem_filterMap.mp hbmem
      have : a = a' := hinj a (List.mem_cons_self a tl) a'
        (List.mem_cons_of_mem a ha') b hfa hfa'
      subst this
      exact absurd ha' (List.nodup_cons.mp hnd).1

/-- The Cartesian product of duplicate-free axis lists is duplicate-free. -/
theorem cartProd_nodup {β : Type} :
    ∀ (ls : List (List β)), (∀ xs ∈ ls, xs.Nodup) → (cartProd ls).Nodup := by
  intro ls
  induction ls with
  | nil =>
    intro _
    simp [cartProd]
  | cons xs ls ih =>
    intro h
    have hcart : (cartProd ls).Nodup := ih (fun ys hy => h ys (List.mem_cons_of_mem xs hy))
    have hxs : xs.Nodup := h xs (List.mem_cons_self xs ls)
    simp only [cartProd]
    clear h ih
    induction xs with
    | nil => simp
    | cons x xs ihx =>
      rw [List.flatMap_cons]
      refine List.Nodup.append ?_ (ihx (List.nodup_cons.mp hxs).2) ?_
      · exact hcart.map (fun t1 t2 ht => by injection ht)
      · intro t ht1 ht2
        obtain ⟨t', -, rfl⟩ := List.mem_map.mp ht1
        obtain ⟨x', hx', hmem⟩ := List.mem_flatMap.mp ht2
        obtain ⟨t3, -, h3⟩ := List.mem_map.mp hmem
        have hxx : x' = x := by injection h3
        subst hxx
        exact absurd hx' (List.nodup_cons.mp hxs).1

end ListPlumbing

section DecompositionFacts

theorem axesLists_length (sh st cnt chs : List Nat)
    (h1 : st.length = sh.length) (h2 : cnt.length = sh.length)
    (h3 : chs.length = sh.length) :
    (axesLists sh st cnt chs).length = sh.length := by
  simp only [axesLists, List.length_map, List.length_zip]
  omega

theorem axesLists_getD (sh st cnt chs : List Nat)
    (h1 : st.length = sh.length) (h2 : cnt.length = sh.length)
    (h3 : chs.length = sh.length) (i : Nat) (hi : i < sh.length) :
    (axesLists sh st cnt chs).getD i [] =
      axisChunkSlices (sh.getD i 0) (st.getD i 0) (cnt.getD i 0) (chs.getD i 0) := by
  have hl : i < ((sh.zip st).zip (cnt.zip chs)).length := by
    simp only [List.length_zip]
    omega
  rw [axesLists, List.getD_eq_getElem _ _ (by simpa using hl), List.getElem_map]
  simp only [List.getElem_zip]
  rw [List.getD_eq_getElem _ _ hi, List.getD_eq_getElem _ _ (by omega : i < st.length),
    List.getD_eq_getElem _ _ (by omega : i < cnt.length),
    List.getD_eq_getElem _ _ (by omega : i < chs.length)]

theorem mem_axisChunkSlices (sh st cnt csh : Nat) (s : Slice) :
    s ∈ axisChunkSlices sh st cnt csh ↔
      ∃ k, (st / csh ≤ k ∧ k ≤ (st + cnt - 1) / csh)
        ∧ s = axisChunkSlice sh st cnt csh k := by
  simp only [axisChunkSlices, List.mem_map]
  constructor
  · rintro ⟨k, hk, rfl⟩
    exact ⟨k, (mem_axisChunkIdxs st cnt csh k).mp hk, rfl⟩
  · rintro ⟨k, hk, rfl⟩
    exact ⟨k, (mem_axisChunkIdxs st cnt csh k).mpr hk, rfl⟩

theorem mem_iterChunks (sh st cnt chs : List Nat) (csl : List Slice)
    (h1 : st.length = sh.length) (h2 : cnt.length = sh.length)
    (h3 : chs.length = sh.length) :
    csl ∈ iterChunks sh st cnt chs ↔
      (csl.length = sh.length ∧ ∀ i, i < sh.length → ∃ k,
        (st.getD i 0 / chs.getD i 0 ≤ k
          ∧ k ≤ (st.getD i 0 + cnt.getD i 0 - 1) / chs.getD i 0)
        ∧ csl.getD i ⟨0, 0⟩ =
            axisChunkSlice (sh.getD i 0) (st.getD i 0) (cnt.getD i 0) (chs.getD i 0) k) := by
  rw [iterChunks, mem_cartProd ⟨0, 0⟩, axesLists_length sh st cnt chs h1 h2 h3]
  constructor
  · rintro ⟨hlen, hmem⟩
    refine ⟨hlen, fun i hi => ?_⟩
    have h := hmem i hi
    rw [axesLists_getD sh st cnt chs h1 h2 h3 i hi] at h
    exact (mem_axisChunkSlices _ _ _ _ _).mp h
  · rintro ⟨hlen, hk⟩
    refine ⟨hlen, fun i hi => ?_⟩
    rw [axesLists_getD sh st cnt chs h1 h2 h3 i hi]
    exact (mem_axisChunkSlices _ _ _ _ _).mpr (hk i hi)

theorem mkWorkItem_none_iff (chs st : List Nat) (csl : List Slice) :
    mkWorkItem chs st csl = none ↔ ∃ s ∈ csl, s.stop ≤ s.start := by
  rw [mkWorkItem]
  cases h : csl.any (fun s => decide (s.stop ≤ s.start)) with
  | true =>
    simp only [h, if_true]
    have hx := List.any_eq_true.mp h
    simp only [decide_eq_true_eq] at hx
    simpa using hx
  | false =>
    simp only [h, Bool.false_eq_true, if_false]
    constructor
    · intro hc
      simp at hc
    · rintro ⟨s, hs, hss⟩
      have hx : csl.any (fun s => decide (s.stop ≤ s.start)) = true :=
        List.any_eq_true.mpr ⟨s, hs, by simpa using hss⟩
      rw [h] at hx
      cases hx

theorem mkWorkItem_some_iff (chs st : List Nat) (csl : List Slice) (w : WorkItem) :
    mkWorkItem chs st csl = some w ↔
      ((∀ s ∈ csl, s.start < s.stop)
        ∧ w = ⟨csl.map Slice.start,
            (csl.zip chs).map
              (fun p => ⟨p.1.start % p.2, p.1.start % p.2 + (p.1.stop - p.1.start)⟩),
            (csl.zip st).map (fun p => ⟨p.1.start - p.2, p.1.stop - p.2⟩)⟩) := by
  rw [mkWorkItem]
  cases h : csl.any (fun s => decide (s.stop ≤ s.start)) with
  | true =>
    simp only [h, if_true]
    obtain ⟨s, hs, hss⟩ := List.any_eq_true.mp h
    simp only [decide_eq_true_eq] at hss
    constructor
    · intro hc
      simp at hc
    · rintro ⟨hall, -⟩
      have := hall s hs
      omega
  | false =>
    simp only [h, Bool.false_eq_true, if_false, Option.some.injEq]
    constructor
    · intro hw
      refine ⟨?_, hw.symm⟩
      intro s hs
      by_contra hns
      have hx : csl.any (fun s => decide (s.stop ≤ s.start)) = true :=
        List.any_eq_true.mpr ⟨s, hs, by simp; omega⟩
      rw [h] at hx
      cases hx
    · rintro ⟨-, rfl⟩
      rfl

theorem inSlices_iff (ss : List Slice) (p : List Nat) :
    inSlices ss p = true ↔
      (p.length = ss.length ∧ ∀ i, i < ss.length →
        (ss.getD i ⟨0, 0⟩).start ≤ p.getD i 0
          ∧ p.getD i 0 < (ss.getD i ⟨0, 0⟩).stop) := by
  simp only [inSlices, Bool.and_eq_true, beq_iff_eq, List.all_eq_true]
  constructor
  · rintro ⟨hlen, hall⟩
    refine ⟨hlen, fun i hi => ?_⟩
    have hzl : i < (ss.zip p).length := by
      rw [List.length_zip]
      omega
    have h := hall ((ss.zip p)[i]) (List.getElem_mem hzl)
    rw [List.getElem_zip] at h
    simp only [Slice.memb, Bool.and_eq_true, decide_eq_true_eq] at h
    rw [List.getD_eq_getElem _ _ hi, List.getD_eq_getElem _ _ (by omega : i < p.length)]
    exact h
  · rintro ⟨hlen, hpt⟩
    refine ⟨hlen, fun q hq => ?_⟩
    obtain ⟨i, hzl, rfl⟩ := List.mem_iff_getElem.mp hq
    rw [List.getElem_zip]
    have hi : i < ss.length := by
      rw [List.length_zip] at hzl
      omega
    have h := hpt i hi
    rw [List.getD_eq_getElem _ _ hi, List.getD_eq_getElem _ _ (by omega : i < p.length)] at h
    simp only [Slice.memb, Bool.and_eq_true, decide_eq_true_eq]
    exact h

theorem axisChunkIdxs_nodup (st cnt csh : Nat) : (axisChunkIdxs st cnt csh).Nodup := by
  rw [axisChunkIdxs]
  refine List.Nodup.map ?_ (List.nodup_range _)
  intro a b hab
  have h : st / csh + a = st / csh + b := hab
  omega

theorem axisChunkSlices_nodup (sh st cnt csh : Nat) (hc : 0 < csh) (hcnt : 0 < cnt)
    (hinv : st + cnt ≤ sh) : (axisChunkSlices sh st cnt csh).Nodup := by
  rw [axisChunkSlices]
  refine List.Nodup.map_on ?_ (axisChunkIdxs_nodup st cnt csh)
  intro k1 hk1 k2 hk2 heq
  have hb1 := axisChunkSlice_nonempty sh st cnt csh k1 hc hcnt hinv
    ((mem_axisChunkIdxs st cnt csh k1).mp hk1)
  have hb2 := axisChunkSlice_nonempty sh st cnt csh k2 hc hcnt hinv
    ((mem_axisChunkIdxs st cnt csh k2).mp hk2)
  have hstop1 : (axisChunkSlice sh st cnt csh k1).stop ≤ k1 * csh + csh :=
    le_trans (min_le_right _ _) (min_le_left _ _)
  have hstop2 : (axisChunkSlice sh st cnt csh k2).stop ≤ k2 * csh + csh :=
    le_trans (min_le_right _ _) (min_le_left _ _)
  have e1 := (inter_start_facts st csh k1 (axisChunkSlice sh st cnt csh k1).start
    (axisChunkSlice sh st cnt csh k1).stop hc rfl hb1 hstop1).2.2.1
  have e2 := (inter_start_facts st csh k2 (axisChunkSlice sh st cnt csh k2).start
    (axisChunkSlice sh st cnt csh k2).stop hc rfl hb2 hstop2).2.2.1
  rw [heq] at e1
  rw [e2] at e1
  exact e1.symm

theorem iterChunks_nodup (sh st cnt chs : List Nat)
    (h1 : st.length = sh.length) (h2 : cnt.length = sh.length)
    (h3 : chs.length = sh.length)
    (hpos : ∀ i, i < sh.length → 0 < chs.getD i 0)
    (hcnt : ∀ i, i < sh.length → 0 < cnt.getD i 0)
    (hinv : ∀ i, i < sh.length → st.getD i 0 + cnt.getD i 0 ≤ sh.getD i 0) :
    (iterChunks sh st cnt chs).Nodup := by
  apply cartProd_nodup
  intro xs hxs
  obtain ⟨pp, hpp, rfl⟩ := List.mem_map.mp hxs
  obtain ⟨i, hil, hpe⟩ := List.mem_iff_getElem.mp hpp
  subst hpe
  simp only [List.getElem_zip]
  have hi : i < sh.length := by
    simp only [List.length_zip] at hil
    omega
  have hi2 : i < st.length := by omega
  have hi3 : i < cnt.length := by omega
  have hi4 : i < chs.length := by omega
  have hp := hpos i hi
  rw [List.getD_eq_getElem _ _ hi4] at hp
  have hc := hcnt i hi
  rw [List.getD_eq_getElem _ _ hi3] at hc
  have hv := hinv i hi
  rw [List.getD_eq_getElem _ _ hi2, List.getD_eq_getElem _ _ hi3,
    List.getD_eq_getElem _ _ hi] at hv
  exact axisChunkSlices_nodup _ _ _ _ hp hc hv

theorem workItems_nodup (sh st cnt chs : List Nat)
    (h1 : st.length = sh.length) (h2 : cnt.length = sh.length)
    (h3 : chs.length = sh.length)
    (hpos : ∀ i, i < sh.length → 0 < chs.getD i 0)
    (hcnt : ∀ i, i < sh.length → 0 < cnt.getD i 0)
    (hinv : ∀ i, i < sh.length → st.getD i 0 + cnt.getD i 0 ≤ sh.getD i 0) :
    (workItems sh chs st cnt).Nodup := by
  rw [workItems]
  refine nodup_filterMap_of_injOn _ _ ?_
    (iterChunks_nodup sh st cnt chs h1 h2 h3 hpos hcnt hinv)
  intro csl hcsl csl' hcsl' w hw hw'
  obtain ⟨hlen, -⟩ := (mem_iterChunks sh st cnt chs csl h1 h2 h3).mp hcsl
  obtain ⟨hlen', -⟩ := (mem_iterChunks sh st cnt chs csl' h1 h2 h3).mp hcsl'
  obtain ⟨hne, hwe⟩ := (mkWorkItem_some_iff chs st csl w).mp hw
  obtain ⟨hne', hwe'⟩ := (mkWorkItem_some_iff chs st csl' w).mp hw'
  have hfields := hwe.symm.trans hwe'
  have hcoord : csl.map Slice.start = csl'.map Slice.start := by
    have := congrArg WorkItem.coord hfields
    simpa using this
  have hchunk :
      (csl.zip chs).map
          (fun p => Slice.mk (p.1.start % p.2) (p.1.start % p.2 + (p.1.stop - p.1.start)))
        = (csl'.zip chs).map
          (fun p => Slice.mk (p.1.start % p.2) (p.1.start % p.2 + (p.1.stop - p.1.start))) := by
    have := congrArg WorkItem.chunkSlice hfields
    simpa using this
  refine ext_getD ⟨0, 0⟩ csl csl' (by omega) ?_
  intro i hi
  have hi' : i < sh.length := by omega
  have hia : i < csl'.length := by omega
  have hic : i < chs.length := by omega
  have hcoordi : (csl.getD i ⟨0, 0⟩).start = (csl'.getD i ⟨0, 0⟩).start := by
    have e1 := getD_map_at Slice.start 0 ⟨0, 0⟩ csl i hi
    have e2 := getD_map_at Slice.start 0 ⟨0, 0⟩ csl' i hia
    rw [← e1, ← e2, hcoord]
  have hsz : (csl.getD i ⟨0, 0⟩).stop - (csl.getD i ⟨0, 0⟩).start
      = (csl'.getD i ⟨0, 0⟩).stop - (csl'.getD i ⟨0, 0⟩).start := by
    have e1 := getD_map_zip_at
      (fun p : Slice × Nat =>
        Slice.mk (p.1.start % p.2) (p.1.start % p.2 + (p.1.stop - p.1.start)))
      ⟨0, 0⟩ ⟨0, 0⟩ 0 csl chs i hi hic
    have e2 := getD_map_zip_at
      (fun p : Slice × Nat =>
        Slice.mk (p.1.start % p.2) (p.1.start % p.2 + (p.1.stop - p.1.start)))
      ⟨0, 0⟩ ⟨0, 0⟩ 0 csl' chs i hia hic
    have e3 : ((csl.zip chs).map
          (fun p => Slice.mk (p.1.start % p.2) (p.1.start % p.2 + (p.1.stop - p.1.start)))).getD
            i ⟨0, 0⟩
        = ((csl'.zip chs).map
          (fun p => Slice.mk (p.1.start % p.2) (p.1.start % p.2 + (p.1.stop - p.1.start)))).getD
            i ⟨0, 0⟩ := by
      rw [hchunk]
    rw [e1, e2] at e3
    have e4 := congrArg Slice.stop e3
    have e5 := congrArg Slice.start e3
    simp only at e4 e5
    omega
  have hne1 : (csl.getD i ⟨0, 0⟩).start < (csl.getD i ⟨0, 0⟩).stop := by
    refine hne _ ?_
    have := List.getD_eq_getElem csl ⟨0, 0⟩ hi
    rw [this]
    exact List.getElem_mem hi
  have hne2 : (csl'.getD i ⟨0, 0⟩).start < (csl'.getD i ⟨0, 0⟩).stop := by
    refine hne' _ ?_
    have := List.getD_eq_getElem csl' ⟨0, 0⟩ hia
    rw [this]
    exact List.getElem_mem hia
  have : (csl.getD i ⟨0, 0⟩).stop = (csl'.getD i ⟨0, 0⟩).stop := by omega
  cases hgd : csl.getD i ⟨0, 0⟩ with
  | mk a b =>
    cases hgd' : csl'.getD i ⟨0, 0⟩ with
    | mk a' b' =>
      rw [hgd, hgd'] at hcoordi this
      simp only at hcoordi this
      rw [hcoordi, this]

end DecompositionFacts

section Coverage

/-- The `iter_chunks` candidate of the chunk containing output position
`p` (start offset `st + p`). -/
def canonCand (sh st cnt chs p : List Nat) : List Slice :=
  (((sh.zip st).zip (cnt.zip chs)).zip p).map
    (fun q => axisChunkSlice q.1.1.1 q.1.1.2 q.1.2.1 q.1.2.2 ((q.1.1.2 + q.2) / q.1.2.2))

theorem canonCand_length (sh st cnt chs p : List Nat)
    (h1 : st.length = sh.length) (h2 : cnt.length = sh.length)
    (h3 : chs.length = sh.length) (hp : p.length = sh.length) :
    (canonCand sh st cnt chs p).length = sh.length := by
  simp only [canonCand, List.length_map, List.length_zip]
  omega

theorem canonCand_getD (sh st cnt chs p : List Nat)
    (h1 : st.length = sh.length) (h2 : cnt.length = sh.length)
    (h3 : chs.length = sh.length) (hp : p.length = sh.length)
    (i : Nat) (hi : i < sh.length) :
    (canonCand sh st cnt chs p).getD i ⟨0, 0⟩ =
      axisChunkSlice (sh.getD i 0) (st.getD i 0) (cnt.getD i 0) (chs.getD i 0)
        ((st.getD i 0 + p.getD i 0) / chs.getD i 0) := by
  have hl : i < (((sh.zip st).zip (cnt.zip chs)).zip p).length := by
    simp only [List.length_zip]
    omega
  rw [canonCand, List.getD_eq_getElem _ _ (by simpa using hl), List.getElem_map]
  simp only [List.getElem_zip]
  rw [List.getD_eq_getElem _ _ hi, List.getD_eq_getElem _ _ (by omega : i < st.length),
    List.getD_eq_getElem _ _ (by omega : i < cnt.length),
    List.getD_eq_getElem _ _ (by omega : i < chs.length),
    List.getD_eq_getElem _ _ (by omega : i < p.length)]

theorem canonCand_mem (sh st cnt chs p : List Nat)
    (h1 : st.length = sh.length) (h2 : cnt.length = sh.length)
    (h3 : chs.length = sh.length) (hp : p.length = sh.length)
    (hcnt : ∀ i, i < sh.length → 0 < cnt.getD i 0)
    (hpr : ∀ i, i < sh.length → p.getD i 0 < cnt.getD i 0) :
    canonCand sh st cnt chs p ∈ iterChunks sh st cnt chs := by
  rw [mem_iterChunks sh st cnt chs _ h1 h2 h3]
  refine ⟨canonCand_length sh st cnt chs p h1 h2 h3 hp, fun i hi => ?_⟩
  refine ⟨(st.getD i 0 + p.getD i 0) / chs.getD i 0, ⟨?_, ?_⟩,
    canonCand_getD sh st cnt chs p h1 h2 h3 hp i hi⟩
  · exact Nat.div_le_div_right (Nat.le_add_right _ _)
  · apply Nat.div_le_div_right
    have hc := hcnt i hi
    have hr := hpr i hi
    omega

theorem canonCand_nonempty (sh st cnt chs p : List Nat)
    (h1 : st.length = sh.length) (h2 : cnt.length = sh.length)
    (h3 : chs.length = sh.length) (hp : p.length = sh.length)
    (hpos : ∀ i, i < sh.length → 0 < chs.getD i 0)
    (hcnt : ∀ i, i < sh.length → 0 < cnt.getD i 0)
    (hinv : ∀ i, i < sh.length → st.getD i 0 + cnt.getD i 0 ≤ sh.getD i 0)
    (hpr : ∀ i, i < sh.length → p.getD i 0 < cnt.getD i 0) :
    ∀ s ∈ canonCand sh st cnt chs p, s.start < s.stop := by
  intro s hs
  obtain ⟨i, hil, hie⟩ := List.mem_iff_getElem.mp hs
  have hi : i < sh.length := by
    have := canonCand_length sh st cnt chs p h1 h2 h3 hp
    omega
  rw [← List.getD_eq_getElem _ (⟨0, 0⟩ : Slice) hil] at hie
  rw [← hie, canonCand_getD sh st cnt chs p h1 h2 h3 hp i hi]
  refine axisChunkSlice_nonempty _ _ _ _ _ (hpos i hi) (hcnt i hi) (hinv i hi) ⟨?_, ?_⟩
  · exact Nat.div_le_div_right (Nat.le_add_right _ _)
  · apply Nat.div_le_div_right
    have hc := hcnt i hi
    have hr := hpr i hi
    omega

theorem canon_workItem_covers (sh st cnt chs p : List Nat)
    (h1 : st.length = sh.length) (h2 : cnt.length = sh.length)
    (h3 : chs.length = sh.length) (hp : p.length = sh.length)
    (hpos : ∀ i, i < sh.length → 0 < chs.getD i 0)
    (hcnt : ∀ i, i < sh.length → 0 < cnt.getD i 0)
    (hinv : ∀ i, i < sh.length → st.getD i 0 + cnt.getD i 0 ≤ sh.getD i 0)
    (hpr : ∀ i, i < sh.length → p.getD i 0 < cnt.getD i 0) :
    ∃ w, mkWorkItem chs st (canonCand sh st cnt chs p) = some w
      ∧ inSlices w.outSlice p = true := by
  have hne := canonCand_nonempty sh st cnt chs p h1 h2 h3 hp hpos hcnt hinv hpr
  have hclen := canonCand_length sh st cnt chs p h1 h2 h3 hp
  refine ⟨_, (mkWorkItem_some_iff chs st _ _).mpr ⟨hne, rfl⟩, ?_⟩
  rw [inSlices_iff]
  have holen : ((canonCand sh st cnt chs p).zip st).length = sh.length := by
    rw [List.length_zip]
    omega
  constructor
  · simp only [List.length_map]
    omega
  · intro i hi
    simp only [List.length_map] at hi
    rw [holen] at hi
    have hout := getD_map_zip_at
      (fun q : Slice × Nat => Slice.mk (q.1.start - q.2) (q.1.stop - q.2))
      ⟨0, 0⟩ ⟨0, 0⟩ 0 (canonCand sh st cnt chs p) st i (by omega) (by omega)
    rw [hout, canonCand_getD sh st cnt chs p h1 h2 h3 hp i hi]
    have hmemb := memb_axisChunkSlice_canon (sh.getD i 0) (st.getD i 0) (cnt.getD i 0)
      (chs.getD i 0) (st.getD i 0 + p.getD i 0) (hpos i hi)
      (Nat.le_add_right _ _)
      (by have := hpr i hi; omega)
      (by have := hpr i hi; have := hinv i hi; omega)
    simp only [Slice.memb, Bool.and_eq_true, decide_eq_true_eq, axisChunkSlice] at hmemb ⊢
    generalize hK : (st.getD i 0 + p.getD i 0) / chs.getD i 0 * chs.getD i 0 = K at hmemb ⊢
    omega

theorem covering_csl_canon (sh st cnt chs p : List Nat)
    (h1 : st.length = sh.length) (h2 : cnt.length = sh.length)
    (h3 : chs.length = sh.length) (hp : p.length = sh.length)
    (hpos : ∀ i, i < sh.length → 0 < chs.getD i 0)
    (csl : List Slice) (hcsl : csl ∈ iterChunks sh st cnt chs)
    (w : WorkItem) (hmk : mkWorkItem chs st csl = some w)
    (hcov : inSlices w.outSlice p = true) :
    csl = canonCand sh st cnt chs p := by
  obtain ⟨hlen, hform⟩ := (mem_iterChunks sh st cnt chs csl h1 h2 h3).mp hcsl
  obtain ⟨hne, rfl⟩ := (mkWorkItem_some_iff chs st csl _).mp hmk
  rw [inSlices_iff] at hcov
  obtain ⟨hplen, hpt⟩ := hcov
  refine ext_getD ⟨0, 0⟩ _ _
    (by rw [hlen, canonCand_length sh st cnt chs p h1 h2 h3 hp]) ?_
  intro i hi
  have hi' : i < sh.length := by omega
  obtain ⟨k, hkb, hkeq⟩ := hform i hi'
  have hout := getD_map_zip_at
    (fun q : Slice × Nat => Slice.mk (q.1.start - q.2) (q.1.stop - q.2))
    ⟨0, 0⟩ ⟨0, 0⟩ 0 csl st i hi (by omega)
  have hol : i < ((csl.zip st).map
      (fun q : Slice × Nat => Slice.mk (q.1.start - q.2) (q.1.stop - q.2))).length := by
    simp only [List.length_map, List.length_zip]
    omega
  have hcv := hpt i (by simpa using hol)
  rw [hout] at hcv
  rw [hkeq] at hcv
  have hmemb : (axisChunkSlice (sh.getD i 0) (st.getD i 0) (cnt.getD i 0)
      (chs.getD i 0) k).memb (st.getD i 0 + p.getD i 0) = true := by
    simp only [axisChunkSlice, Slice.memb, Bool.and_eq_true, decide_eq_true_eq] at hcv ⊢
    generalize hK : k * chs.getD i 0 = K at hcv ⊢
    omega
  have hk := memb_axisChunkSlice_unique (sh.getD i 0) (st.getD i 0) (cnt.getD i 0)
    (chs.getD i 0) k (st.getD i 0 + p.getD i 0) (hpos i hi') hmemb
  rw [hkeq, canonCand_getD sh st cnt chs p h1 h2 h3 hp i hi', hk]

end Coverage

/-- C2: for a non-empty unit-step selection within dataset bounds, every
output position (pointwise below the memory shape) lies in the output
slice of exactly one work item of the decomposition — the output slices
tile `[0, memoryShape)` with no gap and no overlap, so the assembler
writes each position exactly once. -/
theorem c2_workitem_partition (sh chs st cnt p : List Nat)
    (h1 : st.length = sh.length) (h2 : cnt.length = sh.length)
    (h3 : chs.length = sh.length) (hp : p.length = sh.length)
    (hpos : ∀ i, i < sh.length → 0 < chs.getD i 0)
    (hcnt : ∀ i, i < sh.length → 0 < cnt.getD i 0)
    (hinv : ∀ i, i < sh.length → st.getD i 0 + cnt.getD i 0 ≤ sh.getD i 0)
    (hpr : ∀ i, i < sh.length → p.getD i 0 < cnt.getD i 0) :
    (workItems sh chs st cnt).countP (fun w => inSlices w.outSlice p) = 1 := by
  obtain ⟨w0, hmk0, hcov0⟩ :=
    canon_workItem_covers sh st cnt chs p h1 h2 h3 hp hpos hcnt hinv hpr
  have hw0 : w0 ∈ workItems sh chs st cnt :=
    List.mem_filterMap.mpr
      ⟨canonCand sh st cnt chs p, canonCand_mem sh st cnt chs p h1 h2 h3 hp hcnt hpr, hmk0⟩
  refine countP_eq_one_of_unique _ _ w0 hw0 hcov0 ?_
    (workItems_nodup sh st cnt chs h1 h2 h3 hpos hcnt hinv)
  intro y hy hcy
  obtain ⟨csl, hcsl, hmky⟩ := List.mem_filterMap.mp hy
  have hceq := covering_csl_canon sh st cnt chs p h1 h2 h3 hp hpos csl hcsl y hmky hcy
  rw [hceq] at hmky
  exact Option.some.inj (hmk0.symm.trans hmky).symm

/-- Witness for C2 on the 10×10 dataset with 5×5 chunks and selection
`[3:7, 3:7)` (crossing all four chunks) at output position `(3, 3)`. -/
theorem c2_workitem_partition_witness :
    (([3, 3] : List Nat).length = ([10, 10] : List Nat).length)
    ∧ (∀ i, i < ([10, 10] : List Nat).length →
        ([3, 3] : List Nat).getD i 0 + ([4, 4] : List Nat).getD i 0
          ≤ ([10, 10] : List Nat).getD i 0)
    ∧ (workItems [10, 10] [5, 5] [3, 3] [4, 4]).countP
        (fun w => inSlices w.outSlice [3, 3]) = 1 :=
  ⟨rfl, by decide,
    c2_workitem_partition [10, 10] [5, 5] [3, 3] [4, 4] [3, 3] rfl rfl rfl rfl
      (by decide) (by decide) (by decide) (by decide)⟩

/-- C9 amended: the chunk coordinate passed to the per-coordinate lookup is,
per axis, the start `max(start, c)` of the chunk's intersection with the
selection — a coordinate lying inside the chunk `[c, c + chunkShape)`
(so the containing-chunk resolution `coord / chunkShape * chunkShape`
recovers the chunk's absolute start `c`), but not itself necessarily a
multiple of the chunk shape. -/
theorem c9_amended_coord_in_chunk (sh chs st cnt : List Nat)
    (h1 : st.length = sh.length) (h2 : cnt.length = sh.length)
    (h3 : chs.length = sh.length)
    (hpos : ∀ i, i < sh.length → 0 < chs.getD i 0) :
    ∀ w ∈ workItems sh chs st cnt, w.coord.length = sh.length ∧
      ∀ i, i < sh.length → ∃ k,
        w.coord.getD i 0 = max (st.getD i 0) (k * chs.getD i 0)
        ∧ k * chs.getD i 0 ≤ w.coord.getD i 0
        ∧ w.coord.getD i 0 < k * chs.getD i 0 + chs.getD i 0
        ∧ w.coord.getD i 0 / chs.getD i 0 * chs.getD i 0 = k * chs.getD i 0 := by
  intro w hw
  obtain ⟨csl, hcsl, hmk⟩ := List.mem_filterMap.mp hw
  obtain ⟨hlen, hform⟩ := (mem_iterChunks sh st cnt chs csl h1 h2 h3).mp hcsl
  obtain ⟨hne, rfl⟩ := (mkWorkItem_some_iff chs st csl _).mp hmk
  refine ⟨by simp [hlen], ?_⟩
  intro i hi
  obtain ⟨k, hkb, hkeq⟩ := hform i hi
  have hcoord := getD_map_at Slice.start 0 ⟨0, 0⟩ csl i (by omega)
  have hnei : (csl.getD i ⟨0, 0⟩).start < (csl.getD i ⟨0, 0⟩).stop := by
    refine hne _ ?_
    rw [List.getD_eq_getElem _ _ (by omega : i < csl.length)]
    exact List.getElem_mem _
  rw [hkeq] at hnei
  have hstop : (axisChunkSlice (sh.getD i 0) (st.getD i 0) (cnt.getD i 0)
      (chs.getD i 0) k).stop ≤ k * chs.getD i 0 + chs.getD i 0 :=
    le_trans (min_le_right _ _) (min_le_left _ _)
  have hf := inter_start_facts (st.getD i 0) (chs.getD i 0) k _ _ (hpos i hi) rfl hnei hstop
  refine ⟨k, ?_, ?_, ?_, ?_⟩
  · rw [hcoord, hkeq]
    rfl
  · rw [hcoord, hkeq]
    exact hf.1
  · rw [hcoord, hkeq]
    exact hf.2.1
  · rw [hcoord, hkeq]
    have hdiv : (axisChunkSlice (sh.getD i 0) (st.getD i 0) (cnt.getD i 0)
        (chs.getD i 0) k).start / chs.getD i 0 = k := hf.2.2.1
    rw [hdiv]

/-- Witness for C9 amended on the 1-d dataset of extent 10, chunks of 5,
selection `[2:8)`. -/
theorem c9_amended_coord_in_chunk_witness :
    (([2] : List Nat).length = ([10] : List Nat).length)
    ∧ (∀ i, i < ([10] : List Nat).length → 0 < ([5] : List Nat).getD i 0)
    ∧ ∀ w ∈ workItems [10] [5] [2] [6], w.coord.length = ([10] : List Nat).length ∧
      ∀ i, i < ([10] : List Nat).length → ∃ k,
        w.coord.getD i 0 = max (([2] : List Nat).getD i 0) (k * ([5] : List Nat).getD i 0)
        ∧ k * ([5] : List Nat).getD i 0 ≤ w.coord.getD i 0
        ∧ w.coord.getD i 0 < k * ([5] : List Nat).getD i 0 + ([5] : List Nat).getD i 0
        ∧ w.coord.getD i 0 / ([5] : List Nat).getD i 0 * ([5] : List Nat).getD i 0
            = k * ([5] : List Nat).getD i 0 :=
  ⟨rfl, by decide, c9_amended_coord_in_chunk [10] [5] [2] [6] rfl rfl rfl (by decide)⟩

/-- The start of a chunk intersection lies inside chunk `k` whenever `k` is
at least the chunk index of the selection start, so division recovers the
chunk. -/
theorem chunk_start_div (st csh k : Nat) (hc : 0 < csh) (hk : st / csh ≤ k) :
    max st (k * csh) < k * csh + csh
      ∧ max st (k * csh) / csh = k
      ∧ max st (k * csh) % csh = max st (k * csh) - k * csh := by
  have h1 : k * csh ≤ max st (k * csh) := le_max_right _ _
  have hst : st < st / csh * csh + csh := by
    have h := lt_div_succ_mul st csh hc
    rw [Nat.succ_mul] at h
    exact h
  have hmul : st / csh * csh ≤ k * csh := Nat.mul_le_mul_right csh hk
  have h2 : max st (k * csh) < k * csh + csh := by
    generalize hA : st / csh * csh = A at hst hmul
    generalize hK : k * csh = K at hmul ⊢
    omega
  have hdiv : max st (k * csh) / csh = k := by
    refine Nat.div_eq_of_lt_le h1 ?_
    rw [Nat.succ_mul]
    exact h2
  have hdm := Nat.div_add_mod (max st (k * csh)) csh
  rw [hdiv, Nat.mul_comm] at hdm
  refine ⟨h2, hdiv, ?_⟩
  generalize hK : k * csh = K at hdm h1 h2 ⊢
  omega

/-- Python tuple `>` is false when the left tuple is pointwise `≤` the
right one (same length). -/
theorem tupGt_eq_false_of_le (a : List Nat) :
    ∀ (b : List Nat), a.length = b.length →
      (∀ i, i < a.length → a.getD i 0 ≤ b.getD i 0) → tupGt a b = false := by
  induction a with
  | nil =>
    intro b hlen _
    cases b with
    | nil => rfl
    | cons y ys => simp at hlen
  | cons x xs ih =>
    intro b hlen hle
    cases b with
    | nil => simp at hlen
    | cons y ys =>
      have h0 := hle 0 (by simp)
      simp only [List.getD_cons_zero] at h0
      show tupGt (x :: xs) (y :: ys) = false
      simp only [tupGt]
      rw [if_neg (by omega)]
      by_cases hxy : x < y
      · rw [if_pos hxy]
      · rw [if_neg hxy]
        refine ih ys (by simpa using hlen) ?_
        intro i hi
        have h := hle (i + 1) (by simpa using Nat.succ_lt_succ hi)
        simpa [List.getD_cons_succ] using h

/-- The value a covering work item writes at an output position is the
dataset value at `start + p`, when chunks are read from intact storage. -/
theorem covered_value {α : Type} (ds : Dataset α) (st cnt p : List Nat)
    (h1 : st.length = ds.shape.length) (h2 : cnt.length = ds.shape.length)
    (h3 : ds.chunks.length = ds.shape.length)
    (hpos : ∀ i, i < ds.shape.length → 0 < ds.chunks.getD i 0)
    (hp : p.length = ds.shape.length)
    (w : WorkItem) (hw : w ∈ workItems ds.shape ds.chunks st cnt)
    (hcov : inSlices w.outSlice p = true) :
    (goodReader ds w.coord w.chunkSlice).data
        (bcastIdx (goodReader ds w.coord w.chunkSlice).shape
          (List.zipWith (fun s x => x - s.start) w.outSlice p)) = ds.data (zipAdd st p) := by
  obtain ⟨csl, hcsl, hmk⟩ := List.mem_filterMap.mp hw
  obtain ⟨hlen, hform⟩ := (mem_iterChunks ds.shape st cnt ds.chunks csl h1 h2 h3).mp hcsl
  obtain ⟨hne, rfl⟩ := (mkWorkItem_some_iff ds.chunks st csl _).mp hmk
  rw [inSlices_iff] at hcov
  obtain ⟨hplen, hpt⟩ := hcov
  simp only [goodReader]
  have hbcx : bcastIdx
      (((csl.zip ds.chunks).map
        (fun q => Slice.mk (q.1.start % q.2) (q.1.start % q.2 + (q.1.stop - q.1.start)))).map
          Slice.size)
      (List.zipWith (fun s x => x - s.start)
        ((csl.zip st).map (fun q => Slice.mk (q.1.start - q.2) (q.1.stop - q.2))) p)
      = List.zipWith (fun s x => x - s.start)
          ((csl.zip st).map (fun q => Slice.mk (q.1.start - q.2) (q.1.stop - q.2))) p := by
    refine bcastIdx_exact _ _ ?_ ?_
    · simp only [List.length_map, List.length_zip, List.length_zipWith]
      omega
    · intro i hi
      have hir : i < ds.shape.length := by
        simp only [List.length_map, List.length_zip] at hi
        omega
      have hicsl : i < csl.length := by omega
      have hich : i < ds.chunks.length := by omega
      have hist : i < st.length := by omega
      have hip : i < p.length := by omega
      have e_cs : ((csl.zip ds.chunks).map
          (fun q => Slice.mk (q.1.start % q.2) (q.1.start % q.2 + (q.1.stop - q.1.start)))).getD
            i ⟨0, 0⟩
          = ⟨(csl.getD i ⟨0, 0⟩).start % ds.chunks.getD i 0,
              (csl.getD i ⟨0, 0⟩).start % ds.chunks.getD i 0
                + ((csl.getD i ⟨0, 0⟩).stop - (csl.getD i ⟨0, 0⟩).start)⟩ := by
        rw [getD_map_zip_at
          (fun q : Slice × Nat =>
            Slice.mk (q.1.start % q.2) (q.1.start % q.2 + (q.1.stop - q.1.start)))
          ⟨0, 0⟩ ⟨0, 0⟩ 0 csl ds.chunks i hicsl hich]
      have e_sz : ((((csl.zip ds.chunks).map
          (fun q => Slice.mk (q.1.start % q.2) (q.1.start % q.2 + (q.1.stop - q.1.start)))).map
            Slice.size)).getD i 0
          = (csl.getD i ⟨0, 0⟩).stop - (csl.getD i ⟨0, 0⟩).start := by
        rw [getD_map_at Slice.size 0 ⟨0, 0⟩ _ i
          (by simp only [List.length_map, List.length_zip]; omega), e_cs]
        simp [Slice.size]
      have e_out : ((csl.zip st).map
          (fun q => Slice.mk (q.1.start - q.2) (q.1.stop - q.2))).getD i ⟨0, 0⟩
          = ⟨(csl.getD i ⟨0, 0⟩).start - st.getD i 0,
              (csl.getD i ⟨0, 0⟩).stop - st.getD i 0⟩ := by
        rw [getD_map_zip_at
          (fun q : Slice × Nat => Slice.mk (q.1.start - q.2) (q.1.stop - q.2))
          ⟨0, 0⟩ ⟨0, 0⟩ 0 csl st i hicsl hist]
      have e_L : (List.zipWith (fun s x => x - s.start)
          ((csl.zip st).map (fun q => Slice.mk (q.1.start - q.2) (q.1.stop - q.2))) p).getD i 0
          = p.getD i 0 - ((csl.getD i ⟨0, 0⟩).start - st.getD i 0) := by
        rw [getD_zipWith_at _ 0 ⟨0, 0⟩ 0 _ p i
          (by simp only [List.length_map, List.length_zip]; omega) hip, e_out]
      have hcv := hpt i (by simp only [List.length_map, List.length_zip]; omega)
      rw [e_out] at hcv
      rw [e_sz, e_L]
      simp only at hcv
      omega
  rw [hbcx]
  congr 1
  refine ext_getD 0 _ _ ?_ ?_
  · simp only [zipAdd, chunkBase, List.length_zipWith, List.length_map, List.length_zip]
    omega
  · intro i hi
    have hir : i < ds.shape.length := by
      simp only [zipAdd, chunkBase, List.length_zipWith, List.length_map,
        List.length_zip] at hi
      omega
    obtain ⟨k, hkb, hkeq⟩ := hform i hir
    have hicsl : i < csl.length := by omega
    have hich : i < ds.chunks.length := by omega
    have hist : i < st.length := by omega
    have hip : i < p.length := by omega
    have e_coord : (csl.map Slice.start).getD i 0 = (csl.getD i ⟨0, 0⟩).start :=
      getD_map_at Slice.start 0 ⟨0, 0⟩ csl i hicsl
    have e_base : (chunkBase ds.chunks (csl.map Slice.start)).getD i 0
        = (csl.getD i ⟨0, 0⟩).start / ds.chunks.getD i 0 * ds.chunks.getD i 0 := by
      rw [chunkBase, getD_zipWith_at _ 0 0 0 ds.chunks (csl.map Slice.start) i hich
        (by simp only [List.length_map]; omega), e_coord]
    have e_cs : ((csl.zip ds.chunks).map
        (fun q => Slice.mk (q.1.start % q.2) (q.1.start % q.2 + (q.1.stop - q.1.start)))).getD
          i ⟨0, 0⟩
        = ⟨(csl.getD i ⟨0, 0⟩).start % ds.chunks.getD i 0,
            (csl.getD i ⟨0, 0⟩).start % ds.chunks.getD i 0
              + ((csl.getD i ⟨0, 0⟩).stop - (csl.getD i ⟨0, 0⟩).start)⟩ := by
      rw [getD_map_zip_at
        (fun q : Slice × Nat =>
          Slice.mk (q.1.start % q.2) (q.1.start % q.2 + (q.1.stop - q.1.start)))
        ⟨0, 0⟩ ⟨0, 0⟩ 0 csl ds.chunks i hicsl hich]
    have e_csmap : (((csl.zip ds.chunks).map
        (fun q => Slice.mk (q.1.start % q.2) (q.1.start % q.2 + (q.1.stop - q.1.start)))).map
          Slice.start).getD i 0
        = (csl.getD i ⟨0, 0⟩).start % ds.chunks.getD i 0 := by
      rw [getD_map_at Slice.start 0 ⟨0, 0⟩ _ i
        (by simp only [List.length_map, List.length_zip]; omega), e_cs]
    have e_out : ((csl.zip st).map
        (fun q => Slice.mk (q.1.start - q.2) (q.1.stop - q.2))).getD i ⟨0, 0⟩
        = ⟨(csl.getD i ⟨0, 0⟩).start - st.getD i 0,
            (csl.getD i ⟨0, 0⟩).stop - st.getD i 0⟩ := by
      rw [getD_map_zip_at
        (fun q : Slice × Nat => Slice.mk (q.1.start - q.2) (q.1.stop - q.2))
        ⟨0, 0⟩ ⟨0, 0⟩ 0 csl st i hicsl hist]
    have e_L : (List.zipWith (fun s x => x - s.start)
        ((csl.zip st).map (fun q => Slice.mk (q.1.start - q.2) (q.1.stop - q.2))) p).getD i 0
        = p.getD i 0 - ((csl.getD i ⟨0, 0⟩).start - st.getD i 0) := by
      rw [getD_zipWith_at _ 0 ⟨0, 0⟩ 0 _ p i
        (by simp only [List.length_map, List.length_zip]; omega) hip, e_out]
    rw [zipAdd, getD_zipWith_at _ 0 0 0 _ _ i
      (by simp only [zipAdd, chunkBase, List.length_zipWith, List.length_map,
        List.length_zip]; omega)
      (by simp only [List.length_zipWith, List.length_map, List.length_zip]; omega)]
    rw [zipAdd, getD_zipWith_at _ 0 0 0 _ _ i
      (by simp only [chunkBase, List.length_zipWith, List.length_map]; omega)
      (by simp only [List.length_map, List.length_zip]; omega)]
    rw [e_base, e_csmap, e_L]
    rw [zipAdd, getD_zipWith_at _ 0 0 0 st p i hist hip]
    have hnei : (csl.getD i ⟨0, 0⟩).start < (csl.getD i ⟨0, 0⟩).stop := by
      refine hne _ ?_
      rw [List.getD_eq_getElem _ _ hicsl]
      exact List.getElem_mem _
    have hcv := hpt i (by simp only [List.length_map, List.length_zip]; omega)
    rw [e_out] at hcv
    have hstart : (csl.getD i ⟨0, 0⟩).start
        = max (st.getD i 0) (k * ds.chunks.getD i 0) := by
      rw [hkeq]
      rfl
    have hfacts := chunk_start_div (st.getD i 0) (ds.chunks.getD i 0) k (hpos i hir) hkb.1
    rw [← hstart] at hfacts
    have hstle : st.getD i 0 ≤ (csl.getD i ⟨0, 0⟩).start := by
      rw [hstart]
      exact le_max_left _ _
    have hkle : k * ds.chunks.getD i 0 ≤ (csl.getD i ⟨0, 0⟩).start := by
      rw [hstart]
      exact le_max_right _ _
    rw [hfacts.2.1, hfacts.2.2]
    generalize hK : k * ds.chunks.getD i 0 = K at hkle ⊢
    simp only at hcv
    omega

/-- With intact storage, every work item's sub-array passes the integrity
test of the read loop. -/
theorem goodReader_ok {α : Type} (ds : Dataset α) (st cnt : List Nat)
    (h1 : st.length = ds.shape.length) (h2 : cnt.length = ds.shape.length)
    (h3 : ds.chunks.length = ds.shape.length)
    (hinv : ∀ i, i < ds.shape.length → st.getD i 0 + cnt.getD i 0 ≤ ds.shape.getD i 0) :
    ∀ w ∈ workItems ds.shape ds.chunks st cnt,
      chunkArrBad ds cnt (goodReader ds w.coord w.chunkSlice) = false := by
  intro w hw
  obtain ⟨csl, hcsl, hmk⟩ := List.mem_filterMap.mp hw
  obtain ⟨hlen, hform⟩ := (mem_iterChunks ds.shape st cnt ds.chunks csl h1 h2 h3).mp hcsl
  obtain ⟨hne, rfl⟩ := (mkWorkItem_some_iff ds.chunks st csl _).mp hmk
  rw [chunkArrBad]
  simp only [goodReader, bne_self_eq_false, Bool.false_or]
  have hshlen : ((((csl.zip ds.chunks).map
      (fun q => Slice.mk (q.1.start % q.2) (q.1.start % q.2 + (q.1.stop - q.1.start)))).map
        Slice.size)).length = cnt.length := by
    simp only [List.length_map, List.length_zip]
    omega
  have h4 : (((((csl.zip ds.chunks).map
      (fun q => Slice.mk (q.1.start % q.2) (q.1.start % q.2 + (q.1.stop - q.1.start)))).map
        Slice.size)).length != cnt.length) = false := by
    rw [hshlen]
    exact bne_self_eq_false _
  rw [h4, Bool.false_or]
  refine tupGt_eq_false_of_le _ cnt hshlen ?_
  intro i hi
  rw [hshlen] at hi
  have hir : i < ds.shape.length := by omega
  obtain ⟨k, hkb, hkeq⟩ := hform i hir
  have hicsl : i < csl.length := by omega
  have hich : i < ds.chunks.length := by omega
  have e_cs : ((csl.zip ds.chunks).map
      (fun q => Slice.mk (q.1.start % q.2) (q.1.start % q.2 + (q.1.stop - q.1.start)))).getD
        i ⟨0, 0⟩
      = ⟨(csl.getD i ⟨0, 0⟩).start % ds.chunks.getD i 0,
          (csl.getD i ⟨0, 0⟩).start % ds.chunks.getD i 0
            + ((csl.getD i ⟨0, 0⟩).stop - (csl.getD i ⟨0, 0⟩).start)⟩ := by
    rw [getD_map_zip_at
      (fun q : Slice × Nat =>
        Slice.mk (q.1.start % q.2) (q.1.start % q.2 + (q.1.stop - q.1.start)))
      ⟨0, 0⟩ ⟨0, 0⟩ 0 csl ds.chunks i hicsl hich]
  have e_sz : ((((csl.zip ds.chunks).map
      (fun q => Slice.mk (q.1.start % q.2) (q.1.start % q.2 + (q.1.stop - q.1.start)))).map
        Slice.size)).getD i 0
      = (csl.getD i ⟨0, 0⟩).stop - (csl.getD i ⟨0, 0⟩).start := by
    rw [getD_map_at Slice.size 0 ⟨0, 0⟩ _ i
      (by simp only [List.length_map, List.length_zip]; omega), e_cs]
    simp [Slice.size]
  rw [e_sz]
  have hstart : (csl.getD i ⟨0, 0⟩).start
      = max (st.getD i 0) (k * ds.chunks.getD i 0) := by
    rw [hkeq]
    rfl
  have hstople : (csl.getD i ⟨0, 0⟩).stop ≤ st.getD i 0 + cnt.getD i 0 := by
    rw [hkeq]
    exact min_le_left _ _
  have hstle : st.getD i 0 ≤ (csl.getD i ⟨0, 0⟩).start := by
    rw [hstart]
    exact le_max_left _ _
  omega

/-- With intact storage, every work item's sub-array has exactly the shape
of its output region, so the numpy broadcast check of the assignment
passes. -/
theorem goodReader_bcast_ok {α : Type} (ds : Dataset α) (st cnt : List Nat)
    (h1 : st.length = ds.shape.length) (h2 : cnt.length = ds.shape.length)
    (h3 : ds.chunks.length = ds.shape.length) :
    ∀ w ∈ workItems ds.shape ds.chunks st cnt,
      broadcastsTo (goodReader ds w.coord w.chunkSlice).shape
        (w.outSlice.map Slice.size) = true := by
  intro w hw
  obtain ⟨csl, hcsl, hmk⟩ := List.mem_filterMap.mp hw
  obtain ⟨hlen, hform⟩ := (mem_iterChunks ds.shape st cnt ds.chunks csl h1 h2 h3).mp hcsl
  obtain ⟨hne, rfl⟩ := (mkWorkItem_some_iff ds.chunks st csl _).mp hmk
  show broadcastsTo
      (((csl.zip ds.chunks).map
        (fun q => Slice.mk (q.1.start % q.2) (q.1.start % q.2 + (q.1.stop - q.1.start)))).map
          Slice.size)
      (((csl.zip st).map (fun q => Slice.mk (q.1.start - q.2) (q.1.stop - q.2))).map
        Slice.size) = true
  have hsheq : (((csl.zip ds.chunks).map
      (fun q => Slice.mk (q.1.start % q.2) (q.1.start % q.2 + (q.1.stop - q.1.start)))).map
        Slice.size)
      = (((csl.zip st).map (fun q => Slice.mk (q.1.start - q.2) (q.1.stop - q.2))).map
          Slice.size) := by
    refine ext_getD 0 _ _ ?_ ?_
    · simp only [List.length_map, List.length_zip]
      omega
    · intro i hi
      have hir : i < ds.shape.length := by
        simp only [List.length_map, List.length_zip] at hi
        omega
      obtain ⟨k, hkb, hkeq⟩ := hform i hir
      have hicsl : i < csl.length := by omega
      have hich : i < ds.chunks.length := by omega
      have hist : i < st.length := by omega
      have e_cs : ((csl.zip ds.chunks).map
          (fun q => Slice.mk (q.1.start % q.2) (q.1.start % q.2 + (q.1.stop - q.1.start)))).getD
            i ⟨0, 0⟩
          = ⟨(csl.getD i ⟨0, 0⟩).start % ds.chunks.getD i 0,
              (csl.getD i ⟨0, 0⟩).start % ds.chunks.getD i 0
                + ((csl.getD i ⟨0, 0⟩).stop - (csl.getD i ⟨0, 0⟩).start)⟩ := by
        rw [getD_map_zip_at
          (fun q : Slice × Nat =>
            Slice.mk (q.1.start % q.2) (q.1.start % q.2 + (q.1.stop - q.1.start)))
          ⟨0, 0⟩ ⟨0, 0⟩ 0 csl ds.chunks i hicsl hich]
      have e_sz : ((((csl.zip ds.chunks).map
          (fun q => Slice.mk (q.1.start % q.2) (q.1.start % q.2 + (q.1.stop - q.1.start)))).map
            Slice.size)).getD i 0
          = (csl.getD i ⟨0, 0⟩).stop - (csl.getD i ⟨0, 0⟩).start := by
        rw [getD_map_at Slice.size 0 ⟨0, 0⟩ _ i
          (by simp only [List.length_map, List.length_zip]; omega), e_cs]
        simp [Slice.size]
      have e_out : ((csl.zip st).map
          (fun q => Slice.mk (q.1.start - q.2) (q.1.stop - q.2))).getD i ⟨0, 0⟩
          = ⟨(csl.getD i ⟨0, 0⟩).start - st.getD i 0,
              (csl.getD i ⟨0, 0⟩).stop - st.getD i 0⟩ := by
        rw [getD_map_zip_at
          (fun q : Slice × Nat => Slice.mk (q.1.start - q.2) (q.1.stop - q.2))
          ⟨0, 0⟩ ⟨0, 0⟩ 0 csl st i hicsl hist]
      have e_szout : ((((csl.zip st).map
          (fun q => Slice.mk (q.1.start - q.2) (q.1.stop - q.2))).map Slice.size)).getD i 0
          = ((csl.getD i ⟨0, 0⟩).stop - st.getD i 0)
            - ((csl.getD i ⟨0, 0⟩).start - st.getD i 0) := by
        rw [getD_map_at Slice.size 0 ⟨0, 0⟩ _ i
          (by simp only [List.length_map, List.length_zip]; omega), e_out]
        simp [Slice.size]
      rw [e_sz, e_szout]
      have hstart : (csl.getD i ⟨0, 0⟩).start
          = max (st.getD i 0) (k * ds.chunks.getD i 0) := by
        rw [hkeq]
        rfl
      have hstle : st.getD i 0 ≤ (csl.getD i ⟨0, 0⟩).start := by
        rw [hstart]
        exact le_max_left _ _
      omega
  rw [hsheq]
  exact broadcastsTo_refl _

/-- The buffer assembled from intact storage holds, at every in-range
output position, the dataset value at `start + p`. -/
theorem assemble_good {α : Type} (ds : Dataset α) (st cnt p : List Nat)
    (init : List Nat → α)
    (h1 : st.length = ds.shape.length) (h2 : cnt.length = ds.shape.length)
    (h3 : ds.chunks.length = ds.shape.length)
    (hpos : ∀ i, i < ds.shape.length → 0 < ds.chunks.getD i 0)
    (hcnt : ∀ i, i < ds.shape.length → 0 < cnt.getD i 0)
    (hinv : ∀ i, i < ds.shape.length → st.getD i 0 + cnt.getD i 0 ≤ ds.shape.getD i 0)
    (hp : p.length = ds.shape.length)
    (hpr : ∀ i, i < ds.shape.length → p.getD i 0 < cnt.getD i 0) :
    assemble (goodReader ds) (workItems ds.shape ds.chunks st cnt) init p
      = ds.data (zipAdd st p) := by
  refine assemble_covered (goodReader ds) _ init p _ ?_ ?_
  · intro w hw hcov
    exact covered_value ds st cnt p h1 h2 h3 hpos hp w hw hcov
  · obtain ⟨w0, hmk0, hcov0⟩ :=
      canon_workItem_covers ds.shape st cnt ds.chunks p h1 h2 h3 hp hpos hcnt hinv hpr
    exact ⟨w0, List.mem_filterMap.mpr
      ⟨_, canonCand_mem ds.shape st cnt ds.chunks p h1 h2 h3 hp hcnt hpr, hmk0⟩, hcov0⟩

section Reshape

theorem flatIdx_aux :
    ∀ (sh : List Nat) (ix : List Nat) (a : Nat), sh.length = ix.length →
      List.foldl (fun acc q => acc * q.1 + q.2) a (sh.zip ix)
        = a * sh.prod + flatIdx sh ix := by
  intro sh
  induction sh with
  | nil =>
    intro ix a _
    simp [flatIdx]
  | cons e sh ih =>
    intro ix a hlen
    cases ix with
    | nil => simp at hlen
    | cons x ix =>
      have hl : sh.length = ix.length := by simpa using hlen
      rw [List.zip_cons_cons, List.foldl_cons, ih ix (a * e + x) hl]
      have h2 : flatIdx (e :: sh) (x :: ix) = x * sh.prod + flatIdx sh ix := by
        show List.foldl _ 0 _ = _
        rw [List.zip_cons_cons, List.foldl_cons, ih ix (0 * e + x) hl]
        ring
      rw [List.prod_cons, h2]
      ring

theorem flatIdx_cons (e : Nat) (sh : List Nat) (x : Nat) (ix : List Nat)
    (hlen : sh.length = ix.length) :
    flatIdx (e :: sh) (x :: ix) = x * sh.prod + flatIdx sh ix := by
  show List.foldl _ 0 _ = _
  rw [List.zip_cons_cons, List.foldl_cons, flatIdx_aux sh ix (0 * e + x) hlen]
  ring

theorem flatIdx_lt :
    ∀ (sh : List Nat) (ix : List Nat), sh.length = ix.length →
      (∀ i, i < sh.length → ix.getD i 0 < sh.getD i 0) → flatIdx sh ix < sh.prod := by
  intro sh
  induction sh with
  | nil =>
    intro ix _ _
    simp [flatIdx]
  | cons e sh ih =>
    intro ix hlen hr
    cases ix with
    | nil => simp at hlen
    | cons x ix =>
      have hl : sh.length = ix.length := by simpa using hlen
      rw [flatIdx_cons e sh x ix hl, List.prod_cons]
      have h0 : x < e := by simpa using hr 0 (by simp)
      have hrec : flatIdx sh ix < sh.prod := by
        refine ih ix hl ?_
        intro i hi
        simpa [List.getD_cons_succ] using hr (i + 1) (by simpa using Nat.succ_lt_succ hi)
      calc x * sh.prod + flatIdx sh ix < x * sh.prod + sh.prod := by omega
        _ = (x + 1) * sh.prod := by ring
        _ ≤ e * sh.prod := Nat.mul_le_mul_right _ (by omega)

theorem unflat_lt :
    ∀ (cnt : List Nat) (n : Nat), n < cnt.prod →
      (unflat cnt n).length = cnt.length
        ∧ ∀ i, i < cnt.length → (unflat cnt n).getD i 0 < cnt.getD i 0 := by
  intro cnt
  induction cnt with
  | nil =>
    intro n _
    exact ⟨rfl, fun i hi => absurd hi (by simp)⟩
  | cons c cnt ih =>
    intro n hn
    rw [List.prod_cons] at hn
    rcases Nat.eq_zero_or_pos cnt.prod with hz | hpz
    · rw [hz, Nat.mul_zero] at hn
      exact absurd hn (by omega)
    · have hmod : n % cnt.prod < cnt.prod := Nat.mod_lt n hpz
      obtain ⟨ihlen, ihlt⟩ := ih (n % cnt.prod) hmod
      constructor
      · simp [unflat, ihlen]
      · intro i hi
        cases i with
        | zero =>
          simp only [unflat, List.getD_cons_zero]
          exact (Nat.div_lt_iff_lt_mul hpz).mpr hn
        | succ j =>
          simp only [unflat, List.getD_cons_succ]
          exact ihlt j (by simpa using hi)

theorem squeezeShape_cons_true (c : Nat) (cnt : List Nat) (scalar : List Bool) :
    squeezeShape (c :: cnt) (true :: scalar) = squeezeShape cnt scalar := by
  simp [squeezeShape]

theorem squeezeShape_cons_false (c : Nat) (cnt : List Nat) (scalar : List Bool) :
    squeezeShape (c :: cnt) (false :: scalar) = c :: squeezeShape cnt scalar := by
  simp [squeezeShape, List.filter_cons]

theorem squeeze_prod :
    ∀ (cnt : List Nat) (scalar : List Bool), scalar.length = cnt.length →
      (∀ i, i < cnt.length → scalar.getD i false = true → cnt.getD i 0 = 1) →
      (squeezeShape cnt scalar).prod = cnt.prod := by
  intro cnt
  induction cnt with
  | nil =>
    intro scalar hlen _
    cases scalar with
    | nil => rfl
    | cons s scalar => simp at hlen
  | cons c cnt ih =>
    intro scalar hlen hsc
    cases scalar with
    | nil => simp at hlen
    | cons s scalar =>
      have hlen' : scalar.length = cnt.length := by simpa using hlen
      have hsc' : ∀ i, i < cnt.length → scalar.getD i false = true → cnt.getD i 0 = 1 := by
        intro i hi hs
        simpa using hsc (i + 1) (by simpa using Nat.succ_lt_succ hi)
          (by simpa [List.getD_cons_succ] using hs)
      cases s with
      | true =>
        have hc1 : c = 1 := by simpa using hsc 0 (by simp) (by simp)
        rw [squeezeShape_cons_true, ih scalar hlen' hsc', List.prod_cons, hc1, Nat.one_mul]
      | false =>
        rw [squeezeShape_cons_false, List.prod_cons, List.prod_cons,
          ih scalar hlen' hsc']

theorem unflat_flat_squeeze :
    ∀ (cnt : List Nat) (scalar : List Bool) (q : List Nat),
      scalar.length = cnt.length →
      (∀ i, i < cnt.length → scalar.getD i false = true → cnt.getD i 0 = 1) →
      q.length = (squeezeShape cnt scalar).length →
      (∀ i, i < q.length → q.getD i 0 < (squeezeShape cnt scalar).getD i 0) →
      unflat cnt (flatIdx (squeezeShape cnt scalar) q) = expandIdx scalar q := by
  intro cnt
  induction cnt with
  | nil =>
    intro scalar q hlen hsc hq hqr
    cases scalar with
    | cons s scalar => simp at hlen
    | nil =>
      have hq0 : q = [] := by
        have : q.length = 0 := by simpa [squeezeShape] using hq
        exact List.length_eq_zero.mp this
      subst hq0
      rfl
  | cons c cnt ih =>
    intro scalar q hlen hsc hq hqr
    cases scalar with
    | nil => simp at hlen
    | cons s scalar =>
      have hlen' : scalar.length = cnt.length := by simpa using hlen
      have hsc' : ∀ i, i < cnt.length → scalar.getD i false = true → cnt.getD i 0 = 1 := by
        intro i hi hs
        simpa using hsc (i + 1) (by simpa using Nat.succ_lt_succ hi)
          (by simpa [List.getD_cons_succ] using hs)
      cases s with
      | true =>
        have hc1 : c = 1 := by simpa using hsc 0 (by simp) (by simp)
        rw [squeezeShape_cons_true] at hq hqr ⊢
        have hn : flatIdx (squeezeShape cnt scalar) q < (squeezeShape cnt scalar).prod :=
          flatIdx_lt _ q hq.symm (fun i hi => hqr i (by omega))
        rw [squeeze_prod cnt scalar hlen' hsc'] at hn
        show (flatIdx (squeezeShape cnt scalar) q) / cnt.prod
            :: unflat cnt ((flatIdx (squeezeShape cnt scalar) q) % cnt.prod)
          = 0 :: expandIdx scalar q
        rw [Nat.div_eq_of_lt hn, Nat.mod_eq_of_lt hn, ih scalar q hlen' hsc' hq hqr]
      | false =>
        rw [squeezeShape_cons_false] at hq hqr ⊢
        cases q with
        | nil => simp at hq
        | cons x q =>
          have hq' : q.length = (squeezeShape cnt scalar).length := by simpa using hq
          have hqr' : ∀ i, i < q.length →
              q.getD i 0 < (squeezeShape cnt scalar).getD i 0 := by
            intro i hi
            simpa [List.getD_cons_succ] using hqr (i + 1) (by simpa using Nat.succ_lt_succ hi)
          rw [flatIdx_cons c _ x q hq'.symm]
          have hprod : (squeezeShape cnt scalar).prod = cnt.prod :=
            squeeze_prod cnt scalar hlen' hsc'
          have hflt : flatIdx (squeezeShape cnt scalar) q < cnt.prod := by
            rw [← hprod]
            exact flatIdx_lt _ q hq'.symm (fun i hi => hqr' i (by omega))
          have hpz : 0 < cnt.prod := by omega
          rw [hprod]
          show (x * cnt.prod + flatIdx (squeezeShape cnt scalar) q) / cnt.prod
              :: unflat cnt ((x * cnt.prod + flatIdx (squeezeShape cnt scalar) q) % cnt.prod)
            = x :: expandIdx scalar q
          have hdiv : (x * cnt.prod + flatIdx (squeezeShape cnt scalar) q) / cnt.prod = x := by
            rw [Nat.add_comm, Nat.add_mul_div_right _ _ hpz, Nat.div_eq_of_lt hflt,
              Nat.zero_add]
          have hmod : (x * cnt.prod + flatIdx (squeezeShape cnt scalar) q) % cnt.prod
              = flatIdx (squeezeShape cnt scalar) q := by
            rw [Nat.add_comm, Nat.add_mul_mod_self_right]
            exact Nat.mod_eq_of_lt hflt
          rw [hdiv, hmod, ih scalar q hlen' hsc' hq' hqr']

end Reshape

theorem array_shape_eq_squeeze (sel : Selection) :
    sel.array_shape = squeezeShape sel.count sel.scalar := rfl

/-- A zero count on some (necessarily non-integer-indexed) axis survives
the squeeze. -/
theorem zero_mem_squeeze (cnt : List Nat) (scalar : List Bool)
    (hlen : scalar.length = cnt.length)
    (hsc : ∀ i, i < cnt.length → scalar.getD i false = true → cnt.getD i 0 = 1)
    (h0 : 0 ∈ cnt) : 0 ∈ squeezeShape cnt scalar := by
  obtain ⟨i, hi, hgi⟩ := List.mem_iff_getElem.mp h0
  have hsl : i < scalar.length := by omega
  have hscal_false : scalar[i] = false := by
    cases hsf : scalar[i] with
    | false => rfl
    | true =>
      have h1 := hsc i hi (by rw [List.getD_eq_getElem _ _ hsl, hsf])
      rw [List.getD_eq_getElem _ _ hi, hgi] at h1
      cases h1
  have hzl : i < (cnt.zip scalar).length := by
    rw [List.length_zip]
    omega
  have hzip : (cnt.zip scalar)[i] = (0, false) := by
    rw [List.getElem_zip, hgi, hscal_false]
  have hmemz : ((0 : Nat), false) ∈ cnt.zip scalar := by
    rw [← hzip]
    exact List.getElem_mem hzl
  exact List.mem_map.mpr ⟨(0, false), List.mem_filter.mpr ⟨hmemz, by simp⟩, rfl⟩

/-- An empty squeezed shape means every axis is integer-indexed. -/
theorem squeeze_nil_all_scalar (cnt : List Nat) (scalar : List Bool)
    (hlen : scalar.length = cnt.length) (hnil : squeezeShape cnt scalar = []) :
    ∀ i, i < cnt.length → scalar.getD i false = true := by
  intro i hi
  cases hsf : scalar.getD i false with
  | true => rfl
  | false =>
    exfalso
    have hzl : i < (cnt.zip scalar).length := by
      rw [List.length_zip]
      omega
    have hzip : (cnt.zip scalar)[i] = (cnt.getD i 0, scalar.getD i false) := by
      rw [List.getElem_zip, List.getD_eq_getElem _ _ hi,
        List.getD_eq_getElem _ _ (by omega : i < scalar.length)]
    have hmem : (cnt.getD i 0, scalar.getD i false) ∈ cnt.zip scalar := by
      rw [← hzip]
      exact List.getElem_mem hzl
    have hmemf : (cnt.getD i 0, scalar.getD i false)
        ∈ (cnt.zip scalar).filter (fun cs => !cs.2) :=
      List.mem_filter.mpr ⟨hmem, by rw [hsf]; rfl⟩
    have hx : cnt.getD i 0 ∈ squeezeShape cnt scalar := List.mem_map.mpr ⟨_, hmemf, rfl⟩
    rw [hnil] at hx
    cases hx

/-- Expanding an index over all-scalar axes yields the all-zero index. -/
theorem expandIdx_all_true :
    ∀ (scalar : List Bool) (q : List Nat),
      (∀ s ∈ scalar, s = true) → expandIdx scalar q = List.replicate scalar.length 0 := by
  intro scalar
  induction scalar with
  | nil =>
    intro q _
    rfl
  | cons s scalar ih =>
    intro q hall
    have hs : s = true := hall s (List.mem_cons_self s scalar)
    subst hs
    show 0 :: expandIdx scalar q = _
    rw [ih q (fun s hs => hall s (List.mem_cons_of_mem _ hs))]
    rfl

/-- C1: on an eligible dataset with intact chunk storage, the optimized
read path succeeds and returns, at every in-range output index, exactly
the value a reference generic-path read of the same selection yields —
for chunk-aligned and chunk-crossing selections alike, including empty
and all-integer (scalar) selections, and regardless of the uninitialized
buffer contents. -/
theorem c1_optimized_equals_generic {α : Type} (ds : Dataset α) (sel : Selection)
    (init : List Nat → α)
    (h1 : sel.start.length = ds.shape.length)
    (h2 : sel.count.length = ds.shape.length)
    (h3 : ds.chunks.length = ds.shape.length)
    (h4 : sel.scalar.length = sel.count.length)
    (hpos : ∀ i, i < ds.shape.length → 0 < ds.chunks.getD i 0)
    (hinv : ∀ i, i < ds.shape.length →
      sel.start.getD i 0 + sel.count.getD i 0 ≤ ds.shape.getD i 0)
    (hsc : ∀ i, i < sel.count.length → sel.scalar.getD i false = true →
      sel.count.getD i 0 = 1) :
    ∃ res, opt_selection_read ds sel (goodReader ds) init = Except.ok res
      ∧ ∀ q, q.length = res.shape.length →
          (∀ i, i < q.length → q.getD i 0 < res.shape.getD i 0) →
          res.val q = genericRead ds sel q := by
  cases h0 : sel.mshape.contains 0 with
  | true =>
    refine ⟨⟨false, sel.array_shape, reshape sel.mshape sel.array_shape init, 0⟩, ?_, ?_⟩
    · rw [opt_selection_read]
      simp [h0]
      exact fun h => absurd (List.elem_iff.mp h0) h
    · intro q hql hqr
      exfalso
      have h0c : (0 : Nat) ∈ sel.count := List.elem_iff.mp h0
      have h0s : (0 : Nat) ∈ squeezeShape sel.count sel.scalar :=
        zero_mem_squeeze _ _ h4 hsc h0c
      rw [← array_shape_eq_squeeze] at h0s
      obtain ⟨j, hjl, hje⟩ := List.mem_iff_getElem.mp h0s
      have hjq : j < q.length := by
        rw [hql]
        exact hjl
      have hq := hqr j hjq
      have hsh : (sel.array_shape).getD j 0 = 0 := by
        rw [List.getD_eq_getElem _ _ hjl, hje]
      rw [hsh] at hq
      omega
  | false =>
    have hcnt : ∀ i, i < ds.shape.length → 0 < sel.count.getD i 0 := by
      intro i hi
      rcases Nat.eq_zero_or_pos (sel.count.getD i 0) with hz | hp
      · exfalso
        have hmem : (0 : Nat) ∈ sel.count := by
          rw [← hz, List.getD_eq_getElem _ _ (by omega : i < sel.count.length)]
          exact List.getElem_mem _
        have hc : sel.mshape.contains 0 = true := List.elem_iff.mpr hmem
        rw [h0] at hc
        cases hc
      · exact hp
    have hgood : ∀ w ∈ workItems ds.shape ds.chunks sel.start sel.mshape,
        chunkArrBad ds sel.mshape (goodReader ds w.coord w.chunkSlice) = false :=
      goodReader_ok ds sel.start sel.count h1 h2 h3 hinv
    have hbcast : ∀ w ∈ workItems ds.shape ds.chunks sel.start sel.mshape,
        broadcastsTo (goodReader ds w.coord w.chunkSlice).shape
          (w.outSlice.map Slice.size) = true :=
      goodReader_bcast_ok ds sel.start sel.count h1 h2 h3
    have hloop := readLoop_ok ds sel.mshape (goodReader ds)
      (workItems ds.shape ds.chunks sel.start sel.mshape) init 0 hgood hbcast
    have heq : opt_selection_read ds sel (goodReader ds) init =
        (if sel.array_shape = [] then
          if sel.mshape = [] then
            Except.ok ⟨true, [],
              assemble (goodReader ds) (workItems ds.shape ds.chunks sel.start sel.mshape) init,
              0 + (workItems ds.shape ds.chunks sel.start sel.mshape).length⟩
          else
            Except.ok ⟨false, sel.mshape,
              assemble (goodReader ds) (workItems ds.shape ds.chunks sel.start sel.mshape) init,
              0 + (workItems ds.shape ds.chunks sel.start sel.mshape).length⟩
        else
          Except.ok ⟨false, sel.array_shape,
            reshape sel.mshape sel.array_shape
              (assemble (goodReader ds) (workItems ds.shape ds.chunks sel.start sel.mshape) init),
            0 + (workItems ds.shape ds.chunks sel.start sel.mshape).length⟩) := by
      rw [opt_selection_read]
      simp only [h0, Bool.false_eq_true, if_false]
      rw [hloop]
    by_cases ha : sel.array_shape = []
    · by_cases hm : sel.mshape = []
      · rw [heq, if_pos ha, if_pos hm]
        refine ⟨_, rfl, ?_⟩
        intro q hql hqr
        have hq0 : q = [] := List.length_eq_zero.mp (by simpa using hql)
        subst hq0
        show assemble (goodReader ds) _ init [] = genericRead ds sel []
        have hcnt0 : sel.count = [] := hm
        have hsh : ds.shape.length = 0 := by
          rw [← h2, hcnt0]
          rfl
        have hbuf := assemble_good ds sel.start sel.count [] init h1 h2 h3 hpos hcnt hinv
          (by simpa using hsh.symm) (fun i hi => absurd hi (by omega))
        have hst0 : sel.start = [] := List.length_eq_zero.mp (by omega)
        have hgoal : assemble (goodReader ds)
            (workItems ds.shape ds.chunks sel.start sel.mshape) init []
            = ds.data (zipAdd sel.start []) := hbuf
        rw [hgoal, genericRead, hst0]
        rfl
      · rw [heq, if_pos ha, if_neg hm]
        refine ⟨_, rfl, ?_⟩
        intro q hql hqr
        show assemble (goodReader ds) _ init q = genericRead ds sel q
        have hallsc : ∀ i, i < sel.count.length → sel.scalar.getD i false = true :=
          squeeze_nil_all_scalar sel.count sel.scalar h4
            (by rw [← array_shape_eq_squeeze]; exact ha)
        have hall1 : ∀ i, i < sel.count.length → sel.count.getD i 0 = 1 :=
          fun i hi => hsc i hi (hallsc i hi)
        have hql' : q.length = ds.shape.length := by
          rw [← h2]
          exact hql
        have hqr' : ∀ i, i < ds.shape.length → q.getD i 0 < sel.count.getD i 0 :=
          fun i hi => hqr i (by omega)
        have hq0 : ∀ i, i < q.length → q.getD i 0 = 0 := by
          intro i hi
          have ha1 := hqr' i (by omega)
          have ha2 := hall1 i (by omega)
          omega
        have he : expandIdx sel.scalar q = List.replicate sel.scalar.length 0 := by
          refine expandIdx_all_true sel.scalar q ?_
          intro s hs
          obtain ⟨i, hil, hie⟩ := List.mem_iff_getElem.mp hs
          have hx := hallsc i (by omega)
          rw [List.getD_eq_getElem _ _ hil, hie] at hx
          exact hx
        have hgoal : assemble (goodReader ds)
            (workItems ds.shape ds.chunks sel.start sel.mshape) init q
            = ds.data (zipAdd sel.start q) :=
          assemble_good ds sel.start sel.count q init h1 h2 h3 hpos hcnt hinv hql' hqr'
        rw [hgoal, genericRead, he]
        congr 1
        refine ext_getD 0 _ _ ?_ ?_
        · simp only [zipAdd, List.length_zipWith, List.length_replicate]
          omega
        · intro i hi
          have hil : i < sel.start.length := by
            simp only [zipAdd, List.length_zipWith] at hi
            omega
          have hiq : i < q.length := by
            simp only [zipAdd, List.length_zipWith] at hi
            omega
          rw [zipAdd, getD_zipWith_at _ 0 0 0 sel.start q i hil hiq]
          rw [zipAdd, getD_zipWith_at _ 0 0 0 sel.start
            (List.replicate sel.scalar.length 0) i hil
            (by simp only [List.length_replicate]; omega)]
          rw [hq0 i hiq]
          have hrep : (List.replicate sel.scalar.length (0 : Nat)).getD i 0 = 0 := by
            rw [List.getD_eq_getElem _ _ (by simp only [List.length_replicate]; omega)]
            simp
          rw [hrep]
    · rw [heq, if_neg ha]
      refine ⟨_, rfl, ?_⟩
      intro q hql hqr
      show reshape sel.mshape sel.array_shape
          (assemble (goodReader ds) (workItems ds.shape ds.chunks sel.start sel.mshape) init) q
        = genericRead ds sel q
      rw [reshape]
      have hql' : q.length = (squeezeShape sel.count sel.scalar).length := by
        rw [← array_shape_eq_squeeze]
        exact hql
      have hqr' : ∀ i, i < q.length →
          q.getD i 0 < (squeezeShape sel.count sel.scalar).getD i 0 := by
        intro i hi
        rw [← array_shape_eq_squeeze]
        exact hqr i hi
      have hn : flatIdx (squeezeShape sel.count sel.scalar) q < sel.count.prod := by
        rw [← squeeze_prod sel.count sel.scalar h4 hsc]
        exact flatIdx_lt _ q hql'.symm (fun i hi => hqr' i (by omega))
      obtain ⟨hplen, hplt⟩ :=
        unflat_lt sel.count (flatIdx (squeezeShape sel.count sel.scalar) q) hn
      have hbuf := assemble_good ds sel.start sel.count
        (unflat sel.count (flatIdx (squeezeShape sel.count sel.scalar) q)) init
        h1 h2 h3 hpos hcnt hinv (by omega) (fun i hi => hplt i (by omega))
      have hgoal : assemble (goodReader ds)
          (workItems ds.shape ds.chunks sel.start sel.mshape) init
            (unflat sel.mshape (flatIdx sel.array_shape q))
          = ds.data (zipAdd sel.start
              (unflat sel.count (flatIdx (squeezeShape sel.count sel.scalar) q))) := hbuf
      rw [hgoal, unflat_flat_squeeze sel.count sel.scalar q h4 hsc hql' hqr']
      rfl

/-- C1 witness inputs: the 10×10 dataset in 5×5 chunks. -/
def dsC1 : Dataset Int := ⟨[10, 10], [5, 5], "i8", fun l => (l.headD 0 : Int)⟩

/-- The chunk-crossing selection `[3:7, 3:7)`. -/
def selC1 : Selection := ⟨true, [3, 3], [4, 4], [1, 1], [false, false]⟩

/-- Witness for C1 on the chunk-crossing selection `[3:7, 3:7)`. -/
theorem c1_optimized_equals_generic_witness :
    (selC1.start.length = dsC1.shape.length)
    ∧ (∀ i, i < dsC1.shape.length → 0 < dsC1.chunks.getD i 0)
    ∧ (∀ i, i < dsC1.shape.length →
        selC1.start.getD i 0 + selC1.count.getD i 0 ≤ dsC1.shape.getD i 0)
    ∧ (∀ i, i < selC1.count.length → selC1.scalar.getD i false = true →
        selC1.count.getD i 0 = 1)
    ∧ ∃ res, opt_selection_read dsC1 selC1 (goodReader dsC1) (fun _ => 0) = Except.ok res
        ∧ ∀ q, q.length = res.shape.length →
            (∀ i, i < q.length → q.getD i 0 < res.shape.getD i 0) →
            res.val q = genericRead dsC1 selC1 q :=
  ⟨rfl, by decide, by decide, by decide,
    c1_optimized_equals_generic dsC1 selC1 (fun _ => 0) rfl rfl rfl rfl
      (by decide) (by decide) (by decide)⟩

/-- C3: every candidate yielded by the chunk enumeration is, per axis, the
intersection `[max(start, c), min(start+count, c+chunkShape))` with a
grid-aligned chunk coordinate `c`; a candidate is skipped exactly when that
range is empty on some axis, and an emitted work item carries the
intersection shifted by `-c` (intra-chunk slice) and by `-start`
(output-buffer slice), the two having equal sizes. -/
theorem c3_candidate_intersections (sh chs st cnt : List Nat)
    (h1 : st.length = sh.length) (h2 : cnt.length = sh.length)
    (h3 : chs.length = sh.length)
    (hpos : ∀ i, i < sh.length → 0 < chs.getD i 0)
    (hinv : ∀ i, i < sh.length → st.getD i 0 + cnt.getD i 0 ≤ sh.getD i 0) :
    (∀ csl : List Slice,
      (mkWorkItem chs st csl = none ↔ ∃ s ∈ csl, s.stop ≤ s.start))
    ∧ ∀ csl ∈ iterChunks sh st cnt chs, ∃ c : List Nat,
        c.length = sh.length
        ∧ (∀ i, i < sh.length → chs.getD i 0 ∣ c.getD i 0)
        ∧ (∀ i, i < sh.length → csl.getD i ⟨0, 0⟩ =
            ⟨max (st.getD i 0) (c.getD i 0),
             min (st.getD i 0 + cnt.getD i 0) (c.getD i 0 + chs.getD i 0)⟩)
        ∧ ∀ w, mkWorkItem chs st csl = some w →
            ∀ i, i < sh.length →
              w.chunkSlice.getD i ⟨0, 0⟩ =
                ⟨(csl.getD i ⟨0, 0⟩).start - c.getD i 0,
                 (csl.getD i ⟨0, 0⟩).stop - c.getD i 0⟩
              ∧ w.outSlice.getD i ⟨0, 0⟩ =
                ⟨(csl.getD i ⟨0, 0⟩).start - st.getD i 0,
                 (csl.getD i ⟨0, 0⟩).stop - st.getD i 0⟩
              ∧ Slice.size (w.chunkSlice.getD i ⟨0, 0⟩)
                  = Slice.size (w.outSlice.getD i ⟨0, 0⟩) := by
  refine ⟨mkWorkItem_none_iff chs st, ?_⟩
  intro csl hcsl
  obtain ⟨hlen, hform⟩ := (mem_iterChunks sh st cnt chs csl h1 h2 h3).mp hcsl
  refine ⟨(List.range sh.length).map
    (fun i => (csl.getD i ⟨0, 0⟩).start / chs.getD i 0 * chs.getD i 0), ?_, ?_, ?_, ?_⟩
  · simp
  · intro i hi
    have hrg : (List.range sh.length).getD i 0 = i := by
      rw [List.getD_eq_getElem _ _ (by simpa using hi)]
      simp
    rw [getD_map_at _ 0 0 (List.range sh.length) i (by simpa using hi), hrg]
    exact dvd_mul_left _ _
  · intro i hi
    obtain ⟨k, hkb, hkeq⟩ := hform i hi
    have hrg : (List.range sh.length).getD i 0 = i := by
      rw [List.getD_eq_getElem _ _ (by simpa using hi)]
      simp
    rw [getD_map_at _ 0 0 (List.range sh.length) i (by simpa using hi), hrg]
    have hstart : (csl.getD i ⟨0, 0⟩).start
        = max (st.getD i 0) (k * chs.getD i 0) := by
      rw [hkeq]
      rfl
    have hcsd := chunk_start_div (st.getD i 0) (chs.getD i 0) k (hpos i hi) hkb.1
    rw [hstart, hcsd.2.1, hkeq]
    simp only [axisChunkSlice, Slice.mk.injEq]
    refine ⟨trivial, ?_⟩
    have hv := hinv i hi
    generalize k * chs.getD i 0 = K
    omega
  · intro w hw i hi
    obtain ⟨k, hkb, hkeq⟩ := hform i hi
    obtain ⟨hne, hwe⟩ := (mkWorkItem_some_iff chs st csl w).mp hw
    subst hwe
    have hrg : (List.range sh.length).getD i 0 = i := by
      rw [List.getD_eq_getElem _ _ (by simpa using hi)]
      simp
    rw [getD_map_at _ 0 0 (List.range sh.length) i (by simpa using hi), hrg]
    have hicsl : i < csl.length := by omega
    have hich : i < chs.length := by omega
    have hist : i < st.length := by omega
    have hstart : (csl.getD i ⟨0, 0⟩).start
        = max (st.getD i 0) (k * chs.getD i 0) := by
      rw [hkeq]
      rfl
    have hcsd := chunk_start_div (st.getD i 0) (chs.getD i 0) k (hpos i hi) hkb.1
    have hdiv : (csl.getD i ⟨0, 0⟩).start / chs.getD i 0 * chs.getD i 0
        = k * chs.getD i 0 := by
      rw [hstart, hcsd.2.1]
    have hmod : (csl.getD i ⟨0, 0⟩).start % chs.getD i 0
        = (csl.getD i ⟨0, 0⟩).start - k * chs.getD i 0 := by
      rw [hstart, hcsd.2.2]
    have hkle : k * chs.getD i 0 ≤ (csl.getD i ⟨0, 0⟩).start := by
      rw [hstart]
      exact le_max_right _ _
    have hstle : st.getD i 0 ≤ (csl.getD i ⟨0, 0⟩).start := by
      rw [hstart]
      exact le_max_left _ _
    have hnei : (csl.getD i ⟨0, 0⟩).start < (csl.getD i ⟨0, 0⟩).stop := by
      refine hne _ ?_
      rw [List.getD_eq_getElem _ _ hicsl]
      exact List.getElem_mem _
    have e_cs : ((csl.zip chs).map
        (fun q => Slice.mk (q.1.start % q.2) (q.1.start % q.2 + (q.1.stop - q.1.start)))).getD
          i ⟨0, 0⟩
        = ⟨(csl.getD i ⟨0, 0⟩).start % chs.getD i 0,
            (csl.getD i ⟨0, 0⟩).start % chs.getD i 0
              + ((csl.getD i ⟨0, 0⟩).stop - (csl.getD i ⟨0, 0⟩).start)⟩ := by
      rw [getD_map_zip_at
        (fun q : Slice × Nat =>
          Slice.mk (q.1.start % q.2) (q.1.start % q.2 + (q.1.stop - q.1.start)))
        ⟨0, 0⟩ ⟨0, 0⟩ 0 csl chs i hicsl hich]
    have e_out : ((csl.zip st).map
        (fun q => Slice.mk (q.1.start - q.2) (q.1.stop - q.2))).getD i ⟨0, 0⟩
        = ⟨(csl.getD i ⟨0, 0⟩).start - st.getD i 0,
            (csl.getD i ⟨0, 0⟩).stop - st.getD i 0⟩ := by
      rw [getD_map_zip_at
        (fun q : Slice × Nat => Slice.mk (q.1.start - q.2) (q.1.stop - q.2))
        ⟨0, 0⟩ ⟨0, 0⟩ 0 csl st i hicsl hist]
    refine ⟨?_, ?_, ?_⟩
    · rw [e_cs, hmod, hdiv]
      simp only [Slice.mk.injEq]
      refine ⟨trivial, ?_⟩
      generalize k * chs.getD i 0 = K at hkle ⊢
      omega
    · rw [e_out]
    · rw [e_cs, e_out, hmod]
      simp only [Slice.size]
      generalize k * chs.getD i 0 = K at hkle ⊢
      omega

/-- Witness for C3 on the 1-d dataset of extent 10 with chunks of 5. -/
theorem c3_candidate_intersections_witness :
    (([2] : List Nat).length = ([10] : List Nat).length)
    ∧ (∀ i, i < ([10] : List Nat).length → 0 < ([5] : List Nat).getD i 0)
    ∧ ((∀ csl : List Slice,
        (mkWorkItem [5] [2] csl = none ↔ ∃ s ∈ csl, s.stop ≤ s.start))
      ∧ ∀ csl ∈ iterChunks [10] [2] [6] [5], ∃ c : List Nat,
          c.length = ([10] : List Nat).length
          ∧ (∀ i, i < ([10] : List Nat).length →
              ([5] : List Nat).getD i 0 ∣ c.getD i 0)
          ∧ (∀ i, i < ([10] : List Nat).length → csl.getD i ⟨0, 0⟩ =
              ⟨max (([2] : List Nat).getD i 0) (c.getD i 0),
               min (([2] : List Nat).getD i 0 + ([6] : List Nat).getD i 0)
                 (c.getD i 0 + ([5] : List Nat).getD i 0)⟩)
          ∧ ∀ w, mkWorkItem [5] [2] csl = some w →
              ∀ i, i < ([10] : List Nat).length →
                w.chunkSlice.getD i ⟨0, 0⟩ =
                  ⟨(csl.getD i ⟨0, 0⟩).start - c.getD i 0,
                   (csl.getD i ⟨0, 0⟩).stop - c.getD i 0⟩
                ∧ w.outSlice.getD i ⟨0, 0⟩ =
                  ⟨(csl.getD i ⟨0, 0⟩).start - ([2] : List Nat).getD i 0,
                   (csl.getD i ⟨0, 0⟩).stop - ([2] : List Nat).getD i 0⟩
                ∧ Slice.size (w.chunkSlice.getD i ⟨0, 0⟩)
                    = Slice.size (w.outSlice.getD i ⟨0, 0⟩)) :=
  ⟨rfl, by decide,
    c3_candidate_intersections [10] [5] [2] [6] rfl rfl rfl (by decide) (by decide)⟩

end B2

